import Mathlib

/-!
# The handler generator of `internal/cmd/generator/main.go`

A shallow embedding of the generator: the decoded discovery document, the
enumeration of the handler descriptors (`handlerParam`), the sort by
`HandlerName`, the execution of the fixed template, and `run` with the output
file as explicit state.

Conventions of the embedding.

* A Go `string` is a sequence of bytes: `GoString := List (Fin 256)`.
  Comparison of Go strings is byte-wise lexicographic (`strLess`).
* A Go `map[string]*T` is the list of its entries, in the order in which the
  `range` statement of this run visits them. Go leaves that order open, so a
  statement about two runs speaks of two lists that are permutations of each
  other (`SameSpec`). The keys of a map are pairwise distinct (`distinctKeys`).
* A pointer `*T` is an `Option T`; `none` is the nil pointer, which
  `encoding/json` stores for a JSON `null`.
* A run-time panic is a result of its own (`Panic`), kept apart from the
  `error` values `run` returns.
-/

namespace Generator

/-! ## Go strings -/

/-- A Go `byte`. -/
abbrev Byte := Fin 256

/-- A Go `string`: its bytes. -/
abbrev GoString := List Byte

/-- UTF-8 encoding of a code point, as Go's `utf8.AppendRune` writes it for a
valid code point: one to four bytes. -/
def utf8EncodeRune (r : Nat) : GoString :=
  if r < 0x80 then [Fin.ofNat r]
  else if r < 0x800 then [Fin.ofNat (0xC0 + r / 64), Fin.ofNat (0x80 + r % 64)]
  else if r < 0x10000 then
    [Fin.ofNat (0xE0 + r / 4096), Fin.ofNat (0x80 + r / 64 % 64), Fin.ofNat (0x80 + r % 64)]
  else
    [Fin.ofNat (0xF0 + r / 262144), Fin.ofNat (0x80 + r / 4096 % 64),
      Fin.ofNat (0x80 + r / 64 % 64), Fin.ofNat (0x80 + r % 64)]

/-- The Go string that holds a text: the UTF-8 encoding of its characters. -/
def bytesOfChars (cs : List Char) : GoString :=
  cs.flatMap fun c => utf8EncodeRune c.toNat

/-- The Go string written as a string literal. -/
def bytes (s : String) : GoString := bytesOfChars s.toList

/-- Go's `unicode.ToUpper` on the code points up to U+00FF, the only ones the
conversion `string(b)` of a byte `b` produces (the rows of `unicode.CaseRanges`
for that block: `a`-`z`, U+00B5, U+00E0-U+00F6, U+00F8-U+00FE, U+00FF). A code
point above U+00FF is returned as it is; the generator never passes one. -/
def unicodeToUpper (r : Nat) : Nat :=
  if 0x61 ≤ r ∧ r ≤ 0x7A then r - 32
  else if r = 0xB5 then 0x39C
  else if (0xE0 ≤ r ∧ r ≤ 0xF6) ∨ (0xF8 ≤ r ∧ r ≤ 0xFE) then r - 32
  else if r = 0xFF then 0x178
  else r

/-- The expression `strings.ToUpper(string(b))` for a byte `b`: `string(b)` is
the UTF-8 encoding of the code point whose number is `b`, and `ToUpper` maps
that one code point and encodes the result. -/
def toUpperOfByte (b : Byte) : GoString :=
  utf8EncodeRune (unicodeToUpper b.val)

/-- Go's `strings.HasPrefix(s, prefix)`:
`len(s) >= len(prefix) && s[:len(prefix)] == prefix`. -/
def HasPrefix (s pre : GoString) : Bool :=
  decide (pre.length ≤ s.length) && decide (s.take pre.length = pre)

/-- Go's `a < b` on strings: byte-wise lexicographic order. -/
def strLess : GoString → GoString → Bool
  | [], [] => false
  | [], _ :: _ => true
  | _ :: _, [] => false
  | a :: as, b :: bs => decide (a < b) || (decide (a = b) && strLess as bs)

/-! ## The decoded document (lines 28-54) -/

/-- The struct `Parameter`. -/
structure Parameter where
  Type_ : GoString
  Location : GoString
  Required : Bool
deriving DecidableEq

/-- The struct `Method`. -/
structure Method where
  HTTPMethod : GoString
  Parameters : List (GoString × Option Parameter)
  Path : GoString
  FlatPath : GoString
  Scope : List GoString
deriving DecidableEq

/-- The struct `Resource`: the map of its methods, as the list of entries in
iteration order. -/
structure Resource where
  Methods : List (GoString × Option Method)
deriving DecidableEq

/-- The struct `BigQueryAPI`: the map of the resources, as the list of entries
in iteration order. -/
structure BigQueryAPI where
  Resources : List (GoString × Option Resource)
deriving DecidableEq

/-- The struct `handlerParam`, the handler descriptor. -/
structure handlerParam where
  Path : GoString
  HTTPMethod : GoString
  HandlerName : GoString
deriving DecidableEq

/-- The run-time panics the enumeration can raise. -/
inductive Panic where
  | nilPointerDereference
  | indexOutOfRange
deriving DecidableEq

deriving instance DecidableEq for Except

/-! ## The enumerator (lines 93-113) -/

/-- Lines 96-108, the body of the inner loop: the descriptor of one method.
`method.FlatPath` dereferences the pointer first (line 96), `methodName[0]`
indexes the name afterwards (line 103). -/
def handlerParamOf (resourceName methodName : GoString) (method : Option Method) :
    Except Panic handlerParam :=
  match method with
  | none => .error .nilPointerDereference
  | some method =>
    let path := method.FlatPath
    let path := if path = [] then method.Path else path
    let path := if !HasPrefix path (bytes "/") then bytes "/" ++ path else path
    match methodName with
    | [] => .error .indexOutOfRange
    | b :: rest =>
      let camelName := toUpperOfByte b ++ rest
      .ok { Path := path, HTTPMethod := method.HTTPMethod, HandlerName := resourceName ++ camelName }

/-- Lines 95-109, the inner loop: appends the descriptors of the methods of one
resource to `handlerParams`, in iteration order. -/
def methodsLoop (resourceName : GoString) :
    List (GoString × Option Method) → List handlerParam → Except Panic (List handlerParam)
  | [], handlerParams => .ok handlerParams
  | (methodName, method) :: rest, handlerParams =>
    match handlerParamOf resourceName methodName method with
    | .error p => .error p
    | .ok hp => methodsLoop resourceName rest (handlerParams ++ [hp])

/-- Lines 94-110, the outer loop. `resource.Methods` dereferences the resource
pointer. -/
def resourcesLoop :
    List (GoString × Option Resource) → List handlerParam → Except Panic (List handlerParam)
  | [], handlerParams => .ok handlerParams
  | (resourceName, resource) :: rest, handlerParams =>
    match resource with
    | none => .error .nilPointerDereference
    | some resource =>
      match methodsLoop resourceName resource.Methods handlerParams with
      | .error p => .error p
      | .ok handlerParams => resourcesLoop rest handlerParams

/-- Lines 93-110: the slice `handlerParams` before it is sorted. -/
def collectHandlerParams (v : BigQueryAPI) : Except Panic (List handlerParam) :=
  resourcesLoop v.Resources []

/-- Line 112, the `less` function handed to `sort.Slice`. -/
def less (a b : handlerParam) : Bool :=
  strLess a.HandlerName b.HandlerName

/-- The contract of `sort.Slice(x, less)` for a `less` that is a strict weak
order: afterwards the slice holds the same elements and no element is `less`
than one that stands before it. The sort is not stable, so the contract leaves
open the order of elements neither of which is `less` than the other. -/
def SortSliceOutcome (xs out : List handlerParam) : Prop :=
  out.Perm xs ∧ out.Pairwise fun a b => less b a = false

/-- One round of the insertion sort: `x` moves in front of the elements it is
`less` than. -/
def insertLess (x : handlerParam) : List handlerParam → List handlerParam
  | [] => [x]
  | y :: ys => if less x y then x :: y :: ys else y :: insertLess x ys

/-- An executable `sort.Slice`: insertion sort, the algorithm the library runs
on short slices. Every statement about the sort below is proved for all outcomes
that `SortSliceOutcome` allows, of which this is one. -/
def sortSlice (xs : List handlerParam) : List handlerParam :=
  xs.foldl (fun sorted x => insertLess x sorted) []

/-- Lines 93-113, executable: the loops, then the sort. -/
def enumerate (v : BigQueryAPI) : Except Panic (List handlerParam) :=
  match collectHandlerParams v with
  | .error p => .error p
  | .ok handlerParams => .ok (sortSlice handlerParams)

/-- Lines 93-113 with the sort left open: `out` is a slice the template can be
handed for `v`. -/
def EnumeratorOutcome (v : BigQueryAPI) (out : List handlerParam) : Prop :=
  ∃ xs, collectHandlerParams v = .ok xs ∧ SortSliceOutcome xs out

/-! ## Iteration order -/

/-- The keys of a map are pairwise distinct. -/
def distinctKeys {α : Type} (m : List (GoString × α)) : Bool :=
  decide (m.map Prod.fst).Nodup

/-- A decoded document is a value of its Go type: every map has distinct
keys. -/
def BigQueryAPI.isMap (v : BigQueryAPI) : Bool :=
  distinctKeys v.Resources &&
    v.Resources.all fun e =>
      match e.2 with
      | none => true
      | some r => distinctKeys r.Methods

/-- Two resource pointers hold the same methods map, visited in possibly
different orders. -/
def sameMethods : Option Resource → Option Resource → Prop
  | some r, some s => r.Methods.Perm s.Methods
  | none, none => True
  | _, _ => False

/-- Two runs over the same document: the same resources map and the same
methods maps, each visited in a possibly different order. -/
def SameSpec (v w : BigQueryAPI) : Prop :=
  ∃ l, v.Resources.Perm l ∧
    List.Forall₂ (fun a b => a.1 = b.1 ∧ sameMethods a.2 b.2) l w.Resources

/-! ## The template (lines 61-92) and its execution (line 115) -/

/-- The fields of `handlerParam` the template prints. -/
inductive Field where
  | Path
  | HTTPMethod
  | HandlerName
deriving DecidableEq

/-- What stands inside a `range` of the template: text, or an action
`{{ .Field }}`. -/
inductive Item where
  | text (s : GoString)
  | field (f : Field)
deriving DecidableEq

/-- A top level node of the template: text, or `{{ range . }} body {{ end }}`. -/
inductive Node where
  | text (s : GoString)
  | range (body : List Item)
deriving DecidableEq

/-- The white space of `text/template`: space, tab, carriage return, newline. -/
def isSpace (b : Byte) : Bool :=
  b = 0x20 || b = 0x09 || b = 0x0D || b = 0x0A

/-- The effect of the trim marker of an action `{{- ...` on the text before it:
the white space that ends the text is dropped. -/
def trimRight (s : GoString) : GoString :=
  (s.reverse.dropWhile isSpace).reverse

/-- Lines 61-92, the parsed template. Each text is written as it stands in the
source; a text followed by an action with the trim marker `{{-` is under
`trimRight`. -/
def tmpl : List Node :=
  [ .text (trimRight (bytes "// Code generated by internal/cmd/generator. DO NOT EDIT!\npackage server\n\nimport \"net/http\"\n\ntype Handler struct \x7b\n\tPath       string\n\tHTTPMethod string\n\tHandler    http.Handler\n\x7d\n\nvar handlers = []*Handler\x7b\n")),
    .range
      [ .text (bytes "\n\t\x7b\n\t\tPath: \""),
        .field .Path,
        .text (bytes "\",\n\t\tHTTPMethod: \""),
        .field .HTTPMethod,
        .text (bytes "\",\n\t\tHandler:    &"),
        .field .HandlerName,
        .text (trimRight (bytes "Handler\x7b\x7d,\n\t\x7d,\n")) ],
    .text (trimRight (bytes "\n\x7d\n\nvar (\n")),
    .range
      [ .text (bytes "\n  _ http.Handler = &"),
        .field .HandlerName,
        .text (trimRight (bytes "Handler\x7b\x7d\n")) ],
    .text (trimRight (bytes "\n)\n\n")),
    .range
      [ .text (bytes "\ntype "),
        .field .HandlerName,
        .text (bytes "Handler struct \x7b\n\x7d\n") ],
    .text (bytes "\n") ]

/-- The value of a field of the element `dot`; `text/template` prints a string
value as it is. -/
def fieldValue (dot : handlerParam) : Field → GoString
  | .Path => dot.Path
  | .HTTPMethod => dot.HTTPMethod
  | .HandlerName => dot.HandlerName

/-- Execution of an item of a `range` body with the element `dot`. -/
def execItem (dot : handlerParam) : Item → GoString
  | .text s => s
  | .field f => fieldValue dot f

/-- Execution of a node with the slice `data`: a `range` runs its body once for
each element, in order, and writes nothing for an empty slice. -/
def execNode (data : List handlerParam) : Node → GoString
  | .text s => s
  | .range body => data.flatMap fun dot => body.flatMap (execItem dot)

/-- The text `tmpl.Execute(&b, handlerParams)` leaves in `b`. -/
def render (handlerParams : List handlerParam) : GoString :=
  tmpl.flatMap (execNode handlerParams)

/-! ## `run` (lines 56-124) -/

/-- A Go `error` value. -/
structure GoError where
  msg : GoString
deriving DecidableEq

/-- The content of the output file `server/handler_gen.go`; `none` when the file
does not exist. -/
abbrev File := Option GoString

/-- The library calls of `run` whose results it only tests and passes on. The
embedded document `resources/bigquery-api.json` is not part of the source, so
the result of decoding it is a parameter. -/
structure World where
  /-- Line 58, `json.Unmarshal(bigqueryAPIJSON, &v)`: the error, or `v`. -/
  unmarshal : Except GoError BigQueryAPI
  /-- Line 115, `tmpl.Execute(&b, handlerParams)`: the error, or the bytes of `b`. -/
  execute : List handlerParam → Except GoError GoString
  /-- Line 119, `format.Source(b.Bytes())`. -/
  formatSource : GoString → Except GoError GoString
  /-- Line 123, `ioutil.WriteFile(path, buf, 0644)`: the returned error and the
  file afterwards. -/
  writeFile : GoString → File → Option GoError × File

/-- The template engine executes `tmpl` as `render` describes and does not
fail. -/
def World.executesTemplate (w : World) : Prop :=
  ∀ handlerParams, w.execute handlerParams = .ok (render handlerParams)

/-- How a call of `run` ends. -/
inductive Result where
  | returned (err : Option GoError)
  | panicked (p : Panic)
deriving DecidableEq

/-- The function `run`, lines 56-124, with the output file as state: the result
and the file afterwards. -/
def run (w : World) (file : File) : Result × File :=
  match w.unmarshal with
  | .error err => (.returned (some err), file)
  | .ok v =>
    match enumerate v with
    | .error p => (.panicked p, file)
    | .ok handlerParams =>
      match w.execute handlerParams with
      | .error err => (.returned (some err), file)
      | .ok b =>
        match w.formatSource b with
        | .error err => (.returned (some err), file)
        | .ok buf =>
          let (err, file) := w.writeFile buf file
          (.returned err, file)

/-! ## The words of the specification -/

/-- The identifier as the specification derives it: "uppercase the first
character of the method name, concatenate the remainder unchanged, then prepend
the resource name verbatim". The method name is given as its characters. -/
def specIdentifier (resourceName : GoString) (methodName : List Char) : GoString :=
  match methodName with
  | [] => resourceName
  | c :: rest => resourceName ++ (utf8EncodeRune (unicodeToUpper c.toNat) ++ bytesOfChars rest)

/-- The path as the specification resolves it: "prefer the flattened path field;
fall back to the primary path field", then "if it does not start with "/",
prepend "/"". -/
def specPath (method : Method) : GoString :=
  let chosen := if method.FlatPath = [] then method.Path else method.FlatPath
  if chosen.head? = some 0x2F then chosen else 0x2F :: chosen

/-- The descriptor of a (resource, method) pair in closed form: the path as the
specification resolves it, the verb copied, and the identifier: the resource
name, then the first byte of the method name through `toUpperOfByte`, then the
rest of the method name. -/
def specDescriptor (resourceName methodName : GoString) (method : Method) : handlerParam :=
  { Path := specPath method
    HTTPMethod := method.HTTPMethod
    HandlerName := resourceName ++
      (match methodName with
        | [] => []
        | b :: rest => toUpperOfByte b ++ rest) }

/-- Every (resource name, method name, method) of one resource, in iteration
order; a nil method pointer holds none. -/
def methodPairs (resourceName : GoString) (r : Resource) :
    List (GoString × GoString × Method) :=
  r.Methods.flatMap fun m =>
    match m.2 with
    | none => []
    | some method => [(resourceName, m.1, method)]

/-- Every (resource name, method name, method) of the document, resources and
methods in iteration order; nil pointers hold none. -/
def pairsOf (v : BigQueryAPI) : List (GoString × GoString × Method) :=
  v.Resources.flatMap fun e =>
    match e.2 with
    | none => []
    | some r => methodPairs e.1 r

/-- The number of entries of the methods maps of all resources. -/
def methodCount (v : BigQueryAPI) : Nat :=
  (v.Resources.map fun e =>
    match e.2 with
    | none => 0
    | some r => r.Methods.length).sum

/-- The descriptors of all pairs of the document, in iteration order. -/
def descriptorsOf (v : BigQueryAPI) : List handlerParam :=
  (pairsOf v).map fun p => specDescriptor p.1 p.2.1 p.2.2

/-- No pointer of the document is nil and no method name is empty. -/
def wellFormed (v : BigQueryAPI) : Prop :=
  ∀ e ∈ v.Resources, ∃ r, e.2 = some r ∧
    ∀ m ∈ r.Methods, m.1 ≠ [] ∧ ∃ method, m.2 = some method

/-! ## Example documents -/

/-- A method with the given verb, primary path and flattened path, without
parameters and scopes. -/
def methodOf (verb path flatPath : String) : Method :=
  { HTTPMethod := bytes verb, Parameters := [], Path := bytes path,
    FlatPath := bytes flatPath, Scope := [] }

/-- A document with the resources `tables` (methods `list` and `get`) and `jobs`
(method `insert`). -/
def exampleSpec : BigQueryAPI :=
  { Resources :=
      [ (bytes "tables", some { Methods :=
          [ (bytes "list", some (methodOf "GET" "tables" "")),
            (bytes "get", some (methodOf "GET" "tables/\x7bid\x7d" "tables/id")) ] }),
        (bytes "jobs", some { Methods :=
          [ (bytes "insert", some (methodOf "POST" "jobs" "")) ] }) ] }

/-- The document `exampleSpec` visited in another order: `jobs` before `tables`,
and `get` before `list`. -/
def exampleSpecReordered : BigQueryAPI :=
  { Resources :=
      [ (bytes "jobs", some { Methods :=
          [ (bytes "insert", some (methodOf "POST" "jobs" "")) ] }),
        (bytes "tables", some { Methods :=
          [ (bytes "get", some (methodOf "GET" "tables/\x7bid\x7d" "tables/id")),
            (bytes "list", some (methodOf "GET" "tables" "")) ] }) ] }

/-- The document `exampleSpec` with a further resource `empty` that has no
methods. -/
def exampleSpecWithEmpty : BigQueryAPI :=
  { Resources :=
      [ (bytes "tables", some { Methods :=
          [ (bytes "list", some (methodOf "GET" "tables" "")),
            (bytes "get", some (methodOf "GET" "tables/\x7bid\x7d" "tables/id")) ] }),
        (bytes "empty", some { Methods := [] }),
        (bytes "jobs", some { Methods :=
          [ (bytes "insert", some (methodOf "POST" "jobs" "")) ] }) ] }

/-- The descriptors of `exampleSpec`, sorted. -/
def exampleSorted : List handlerParam :=
  [ { Path := bytes "/jobs", HTTPMethod := bytes "POST", HandlerName := bytes "jobsInsert" },
    { Path := bytes "/tables/id", HTTPMethod := bytes "GET", HandlerName := bytes "tablesGet" },
    { Path := bytes "/tables", HTTPMethod := bytes "GET", HandlerName := bytes "tablesList" } ]

/-- A document whose resource `a` has the two methods `get` and `Get`, visited
in this order. -/
def collisionSpec : BigQueryAPI :=
  { Resources :=
      [ (bytes "a", some { Methods :=
          [ (bytes "get", some (methodOf "GET" "x" "")),
            (bytes "Get", some (methodOf "GET" "y" "")) ] }) ] }

/-- The document `collisionSpec` with the two methods visited in the other
order. -/
def collisionSpecSwapped : BigQueryAPI :=
  { Resources :=
      [ (bytes "a", some { Methods :=
          [ (bytes "Get", some (methodOf "GET" "y" "")),
            (bytes "get", some (methodOf "GET" "x" "")) ] }) ] }

/-- The two descriptors of `collisionSpec`, in the order of `collisionSpec`. -/
def collisionOut : List handlerParam :=
  [ { Path := bytes "/x", HTTPMethod := bytes "GET", HandlerName := bytes "aGet" },
    { Path := bytes "/y", HTTPMethod := bytes "GET", HandlerName := bytes "aGet" } ]

/-- A world that decodes the document `v`, executes the template, formats
nothing away and writes the file. -/
def exampleWorld (v : BigQueryAPI) : World :=
  { unmarshal := .ok v
    execute := fun handlerParams => .ok (render handlerParams)
    formatSource := fun b => .ok b
    writeFile := fun buf _ => (none, some buf) }

/-- A world like `exampleWorld` in which `format.Source` fails. -/
def failingFormatWorld (v : BigQueryAPI) : World :=
  { exampleWorld v with formatSource := fun _ => .error { msg := bytes "format error" } }

/-- The document with the one resource `widgets` and its one method `list`, verb
GET, path `widgets`. -/
def widgetsSpec : BigQueryAPI :=
  { Resources :=
      [ (bytes "widgets", some { Methods :=
          [ (bytes "list", some (methodOf "GET" "widgets" "")) ] }) ] }

/-- The descriptor of the method `list` of `widgets`. -/
def widgetsList : handlerParam :=
  { Path := bytes "/widgets", HTTPMethod := bytes "GET", HandlerName := bytes "widgetsList" }

/-! ## Failure of the enumeration, and the shape of paths -/

/-- Some method of a resource has a name of length zero. -/
def hasEmptyName (v : BigQueryAPI) : Prop :=
  ∃ e ∈ v.Resources, ∃ r, e.2 = some r ∧ ∃ m ∈ r.Methods, m.1 = []

/-- No resource pointer and no method pointer of the document is nil. -/
def noNil (v : BigQueryAPI) : Prop :=
  ∀ e ∈ v.Resources, ∃ r, e.2 = some r ∧ ∀ m ∈ r.Methods, ∃ method, m.2 = some method

/-- Lines 96-99: the path chosen before it is normalized, `FlatPath` unless it
is empty. -/
def chosenPath (method : Method) : GoString :=
  let path := method.FlatPath
  if path = [] then method.Path else path

/-- Lines 100-102 on their own: "/" is put in front of a path that does not
start with it. -/
def normalizePath (path : GoString) : GoString :=
  if !HasPrefix path (bytes "/") then bytes "/" ++ path else path

/-- The document whose resource `a` has the one method `get`, a nil pointer
(`"get": null`). -/
def nullMethodSpec : BigQueryAPI :=
  { Resources := [ (bytes "a", some { Methods := [ (bytes "get", none) ] }) ] }

/-- A document with the resource `a` and its method `bc`, and the resource `aB`
and its method `c`. -/
def prefixCollisionSpec : BigQueryAPI :=
  { Resources :=
      [ (bytes "a", some { Methods := [ (bytes "bc", some (methodOf "GET" "x" "")) ] }),
        (bytes "aB", some { Methods := [ (bytes "c", some (methodOf "GET" "y" "")) ] }) ] }

/-- The two descriptors of `prefixCollisionSpec`, sorted. -/
def prefixCollisionOut : List handlerParam :=
  [ { Path := bytes "/y", HTTPMethod := bytes "GET", HandlerName := bytes "aBC" },
    { Path := bytes "/x", HTTPMethod := bytes "GET", HandlerName := bytes "aBc" } ]

/-- A document with the resource `a` and its method `bC`, and the resource `aB`
and its method `c`. -/
def crossCollisionSpec : BigQueryAPI :=
  { Resources :=
      [ (bytes "a", some { Methods := [ (bytes "bC", some (methodOf "GET" "x" "")) ] }),
        (bytes "aB", some { Methods := [ (bytes "c", some (methodOf "GET" "y" "")) ] }) ] }

/-- The two descriptors of `crossCollisionSpec`, in its order. -/
def crossCollisionOut : List handlerParam :=
  [ { Path := bytes "/x", HTTPMethod := bytes "GET", HandlerName := bytes "aBC" },
    { Path := bytes "/y", HTTPMethod := bytes "GET", HandlerName := bytes "aBC" } ]

set_option maxRecDepth 100000

/-! ## Lemmas: comparison of strings -/

theorem strLess_irrefl (a : GoString) : strLess a a = false := by
  induction a with
  | nil => rfl
  | cons x xs ih => simp [strLess, ih]

theorem strLess_trans {a b c : GoString} (hab : strLess a b = true) (hbc : strLess b c = true) :
    strLess a c = true := by
  induction a generalizing b c with
  | nil =>
    cases b with
    | nil => simp [strLess] at hab
    | cons y ys =>
      cases c with
      | nil => simp [strLess] at hbc
      | cons z zs => simp [strLess]
  | cons x xs ih =>
    cases b with
    | nil => simp [strLess] at hab
    | cons y ys =>
      cases c with
      | nil => simp [strLess] at hbc
      | cons z zs =>
        simp only [strLess, Bool.or_eq_true, Bool.and_eq_true, decide_eq_true_eq] at hab hbc ⊢
        rcases hab with hxy | ⟨hxy, hrest⟩
        · rcases hbc with hyz | ⟨hyz, _⟩
          · exact Or.inl (lt_trans hxy hyz)
          · exact Or.inl (hyz ▸ hxy)
        · rcases hbc with hyz | ⟨hyz, hrest2⟩
          · exact Or.inl (hxy ▸ hyz)
          · exact Or.inr ⟨hxy.trans hyz, ih hrest hrest2⟩

theorem strLess_asymm {a b : GoString} (hab : strLess a b = true) : strLess b a = false := by
  cases h : strLess b a with
  | false => rfl
  | true =>
    have := strLess_trans hab h
    rw [strLess_irrefl] at this
    exact absurd this (by simp)

theorem strLess_connex {a b : GoString} (hab : strLess a b = false) (hba : strLess b a = false) :
    a = b := by
  induction a generalizing b with
  | nil =>
    cases b with
    | nil => rfl
    | cons y ys => simp [strLess] at hab
  | cons x xs ih =>
    cases b with
    | nil => simp [strLess] at hba
    | cons y ys =>
      simp only [strLess, Bool.or_eq_false_iff, Bool.and_eq_false_iff, decide_eq_false_iff_not,
        not_lt] at hab hba
      have hxy : x = y := le_antisymm hba.1 hab.1
      subst hxy
      have h1 : strLess xs ys = false := by
        rcases hab.2 with h | h
        · exact absurd rfl h
        · exact h
      have h2 : strLess ys xs = false := by
        rcases hba.2 with h | h
        · exact absurd rfl h
        · exact h
      rw [ih h1 h2]

/-! ## Lemmas: the sort -/

theorem less_irrefl (a : handlerParam) : less a a = false :=
  strLess_irrefl _

theorem less_of_less_of_not_less {x y z : handlerParam} (hxy : less x y = true)
    (hzy : less z y = false) : less z x = false := by
  cases h : less z x with
  | false => rfl
  | true =>
    have : less z y = true := strLess_trans h hxy
    rw [hzy] at this
    exact absurd this (by simp)

theorem insertLess_perm (x : handlerParam) (l : List handlerParam) :
    (insertLess x l).Perm (x :: l) := by
  induction l with
  | nil => exact List.Perm.refl _
  | cons y ys ih =>
    unfold insertLess
    split
    · exact List.Perm.refl _
    · exact (List.Perm.cons y ih).trans (List.Perm.swap x y ys)

theorem insertLess_sorted (x : handlerParam) (l : List handlerParam)
    (hl : l.Pairwise fun a b => less b a = false) :
    (insertLess x l).Pairwise fun a b => less b a = false := by
  induction l with
  | nil => simp [insertLess]
  | cons y ys ih =>
    rw [List.pairwise_cons] at hl
    unfold insertLess
    split
    · rename_i hxy
      refine List.pairwise_cons.2 ⟨?_, List.pairwise_cons.2 hl⟩
      intro z hz
      rcases List.mem_cons.1 hz with rfl | hz
      · exact strLess_asymm hxy
      · exact less_of_less_of_not_less hxy (hl.1 z hz)
    · rename_i hxy
      refine List.pairwise_cons.2 ⟨?_, ih hl.2⟩
      intro z hz
      rcases List.mem_cons.1 ((insertLess_perm x ys).mem_iff.1 hz) with rfl | hz
      · simpa using hxy
      · exact hl.1 z hz

theorem foldl_insertLess (xs sorted : List handlerParam)
    (hs : sorted.Pairwise fun a b => less b a = false) :
    (xs.foldl (fun sorted x => insertLess x sorted) sorted).Perm (sorted ++ xs) ∧
      (xs.foldl (fun sorted x => insertLess x sorted) sorted).Pairwise
        fun a b => less b a = false := by
  induction xs generalizing sorted with
  | nil => simpa using hs
  | cons x xs ih =>
    obtain ⟨hp, hsorted⟩ := ih (insertLess x sorted) (insertLess_sorted x sorted hs)
    refine ⟨?_, hsorted⟩
    refine hp.trans ?_
    refine ((insertLess_perm x sorted).append_right xs).trans ?_
    simpa using (@List.perm_middle _ x sorted xs).symm

theorem sortSlice_outcome (xs : List handlerParam) : SortSliceOutcome xs (sortSlice xs) := by
  obtain ⟨hp, hs⟩ := foldl_insertLess xs [] List.Pairwise.nil
  exact ⟨by simpa using hp, hs⟩

theorem enumerate_outcome {v : BigQueryAPI} {out : List handlerParam}
    (h : enumerate v = .ok out) : EnumeratorOutcome v out := by
  unfold enumerate at h
  split at h
  · exact absurd h (by simp)
  · rename_i xs hxs
    injection h with h
    subst h
    exact ⟨xs, hxs, sortSlice_outcome xs⟩

/-- Two sorted lists with the same elements are equal when the order is
antisymmetric on their elements. -/
theorem eq_of_perm_of_pairwise {α : Type} (r : α → α → Prop) :
    ∀ (l₁ l₂ : List α), l₁.Perm l₂ → l₁.Pairwise r → l₂.Pairwise r →
      (∀ a ∈ l₁, ∀ b ∈ l₁, r a b → r b a → a = b) → l₁ = l₂
  | [], l₂, hp, _, _, _ => (List.Perm.nil_eq hp)
  | a :: t₁, [], hp, _, _, _ => absurd hp.symm (List.not_perm_nil_cons _ _)
  | a :: t₁, b :: t₂, hp, h₁, h₂, anti => by
    rw [List.pairwise_cons] at h₁ h₂
    have hab : a = b := by
      have ha : a ∈ b :: t₂ := hp.mem_iff.1 (List.mem_cons_self _ _)
      have hb : b ∈ a :: t₁ := hp.mem_iff.2 (List.mem_cons_self _ _)
      rcases List.mem_cons.1 ha with h | ha
      · exact h
      · rcases List.mem_cons.1 hb with h | hb
        · exact h.symm
        · exact anti a (List.mem_cons_self _ _) b (List.mem_cons_of_mem _ hb)
            (h₁.1 b hb) (h₂.1 a ha)
    subst hab
    have ht : t₁ = t₂ :=
      eq_of_perm_of_pairwise r t₁ t₂ (List.Perm.cons_inv hp) h₁.2 h₂.2
        (fun x hx y hy => anti x (List.mem_cons_of_mem _ hx) y (List.mem_cons_of_mem _ hy))
    rw [ht]

/-! ## Lemmas: the loops -/

theorem bytes_slash : bytes "/" = [0x2F] := by decide

theorem normalize_eq (p : GoString) :
    (if (!HasPrefix p (bytes "/")) = true then bytes "/" ++ p else p) =
      if p.head? = some 0x2F then p else 0x2F :: p := by
  rw [bytes_slash]
  cases p with
  | nil => simp [HasPrefix]
  | cons b t =>
    by_cases hb : b = 0x2F
    · subst hb
      simp [HasPrefix]
    · simp [HasPrefix, hb]

theorem handlerParamOf_cons (resourceName : GoString) (b : Byte) (rest : GoString)
    (method : Method) :
    handlerParamOf resourceName (b :: rest) (some method) =
      .ok (specDescriptor resourceName (b :: rest) method) := by
  simp only [handlerParamOf, specDescriptor, specPath, normalize_eq]

theorem methodsLoop_ok_iff (resourceName : GoString) (ms : List (GoString × Option Method))
    (acc out : List handlerParam) :
    methodsLoop resourceName ms acc = .ok out ↔
      (∀ m ∈ ms, m.1 ≠ [] ∧ ∃ method, m.2 = some method) ∧
        out = acc ++ (methodPairs resourceName ⟨ms⟩).map
          fun p => specDescriptor p.1 p.2.1 p.2.2 := by
  induction ms generalizing acc with
  | nil => simp [methodsLoop, methodPairs, eq_comm]
  | cons m rest ih =>
    obtain ⟨methodName, method⟩ := m
    cases method with
    | none => simp [methodsLoop, handlerParamOf]
    | some method =>
      cases methodName with
      | nil => simp [methodsLoop, handlerParamOf]
      | cons b t =>
        simp only [methodsLoop, handlerParamOf_cons, ih]
        simp [methodPairs]

theorem resourcesLoop_ok_iff (rs : List (GoString × Option Resource))
    (acc out : List handlerParam) :
    resourcesLoop rs acc = .ok out ↔
      wellFormed ⟨rs⟩ ∧ out = acc ++ descriptorsOf ⟨rs⟩ := by
  induction rs generalizing acc with
  | nil => simp [resourcesLoop, wellFormed, descriptorsOf, pairsOf, eq_comm]
  | cons e rest ih =>
    obtain ⟨resourceName, resource⟩ := e
    cases resource with
    | none => simp [resourcesLoop, wellFormed]
    | some r =>
      simp only [resourcesLoop]
      cases h : methodsLoop resourceName r.Methods acc with
      | error p =>
        have hno := (methodsLoop_ok_iff resourceName r.Methods acc
          (acc ++ (methodPairs resourceName ⟨r.Methods⟩).map
            fun p => specDescriptor p.1 p.2.1 p.2.2)).not.1 (by simp [h])
        simp only [not_and, not_true_eq_false, imp_false] at hno
        constructor
        · intro habs
          exact absurd habs (by simp)
        · rintro ⟨hw, -⟩
          exact absurd (by
            obtain ⟨r', hr', hm⟩ := hw (resourceName, some r) (List.mem_cons_self _ _)
            cases hr'
            exact hm) hno
      | ok mid =>
        obtain ⟨hm, hmid⟩ := (methodsLoop_ok_iff resourceName r.Methods acc mid).1 h
        simp only [ih, wellFormed, descriptorsOf, pairsOf] at *
        subst hmid
        constructor
        · rintro ⟨hw, rfl⟩
          refine ⟨?_, by simp⟩
          intro e he
          rcases List.mem_cons.1 he with rfl | he
          · exact ⟨r, rfl, hm⟩
          · exact hw e he
        · rintro ⟨hw, rfl⟩
          exact ⟨fun e he => hw e (List.mem_cons_of_mem _ he), by simp⟩

theorem collect_ok_iff (v : BigQueryAPI) (out : List handlerParam) :
    collectHandlerParams v = .ok out ↔ wellFormed v ∧ out = descriptorsOf v := by
  simp [collectHandlerParams, resourcesLoop_ok_iff]

theorem outcome_wellFormed {v : BigQueryAPI} {out : List handlerParam}
    (h : EnumeratorOutcome v out) : wellFormed v := by
  obtain ⟨xs, hxs, -⟩ := h
  exact ((collect_ok_iff v xs).1 hxs).1

/-! ## Lemmas: the identifier -/

theorem toUpper_ascii_table :
    ∀ k : Fin 128, (Char.ofNat k.val).toUpper.toNat = unicodeToUpper k.val := by
  decide

theorem toUpper_ascii (c : Char) (hc : c.toNat < 0x80) :
    c.toUpper.toNat = unicodeToUpper c.toNat := by
  have h := toUpper_ascii_table ⟨c.toNat, hc⟩
  simpa using h

theorem bytesOfChars_cons_ascii (c : Char) (cs : List Char) (hc : c.toNat < 0x80) :
    bytesOfChars (c :: cs) = Fin.ofNat c.toNat :: bytesOfChars cs := by
  simp [bytesOfChars, utf8EncodeRune, hc]

theorem unicodeToUpper_ascii_lt (n : Nat) (h : n < 0x80) : unicodeToUpper n < 0x80 := by
  unfold unicodeToUpper
  split
  · omega
  · split
    · omega
    · split
      · omega
      · split
        · omega
        · exact h

/-! ## C1: identifier derivation -/

/-- C1, the claim as stated fails: for the resource `jobs` and the method name
`écrire` the enumerator computes the bytes `jobs`, C3 83, A9, `crire`, while the
resource name followed by the method name with its first character uppercased is
`jobsÉcrire` (`jobs`, C3 89, `crire`). Line 103 takes the first byte of the name,
reads it as the code point U+00C3 and writes that code point's two bytes. -/
theorem handlerName_first_character_counterexample :
    ∃ hp, handlerParamOf (bytes "jobs") (bytes "écrire")
        (some (methodOf "POST" "jobs" "")) = .ok hp ∧
      hp.HandlerName =
        [0x6A, 0x6F, 0x62, 0x73, 0xC3, 0x83, 0xA9, 0x63, 0x72, 0x69, 0x72, 0x65] ∧
      specIdentifier (bytes "jobs") "écrire".toList = bytes "jobsÉcrire" ∧
      bytes "jobsÉcrire" =
        [0x6A, 0x6F, 0x62, 0x73, 0xC3, 0x89, 0x63, 0x72, 0x69, 0x72, 0x65] ∧
      hp.HandlerName ≠ specIdentifier (bytes "jobs") "écrire".toList := by
  refine ⟨_, rfl, ?_, ?_, ?_, ?_⟩ <;> decide

/-- C1, amended: for every resource name and every method name whose first
character is an ASCII character, the enumerator succeeds on the method and the
`HandlerName` it computes is the resource name verbatim followed by the method
name with its first character uppercased and the remainder unchanged. -/
theorem handlerName_ascii_first_character (resourceName : GoString) (method : Method)
    (c : Char) (cs : List Char) (hc : c.toNat < 0x80) :
    ∃ hp, handlerParamOf resourceName (bytesOfChars (c :: cs)) (some method) = .ok hp ∧
      hp.HandlerName = specIdentifier resourceName (c :: cs) ∧
      hp.HandlerName = resourceName ++ bytesOfChars (c.toUpper :: cs) := by
  have hval : (Fin.ofNat c.toNat : Byte).val = c.toNat := by
    simp [Fin.ofNat]; omega
  have hup : (c.toUpper).toNat < 0x80 := by
    rw [toUpper_ascii c hc]; exact unicodeToUpper_ascii_lt _ hc
  refine ⟨_, by rw [bytesOfChars_cons_ascii c cs hc, handlerParamOf_cons], ?_, ?_⟩
  · simp [specDescriptor, specIdentifier, toUpperOfByte, hval]
  · rw [bytesOfChars_cons_ascii _ cs hup, toUpper_ascii c hc]
    simp [specDescriptor, toUpperOfByte, hval, utf8EncodeRune, unicodeToUpper_ascii_lt _ hc]

/-- C1, witness: resource `jobs` with method `insert` gives `jobsInsert`, and
resource `tables` with method `get` gives `tablesGet`. -/
theorem handlerName_ascii_first_character_witness :
    (('i').toNat < 0x80 ∧
      bytesOfChars ('i' :: "nsert".toList) = bytes "insert" ∧
      bytes "jobs" ++ bytesOfChars (('i').toUpper :: "nsert".toList) = bytes "jobsInsert" ∧
      ∃ hp, handlerParamOf (bytes "jobs") (bytesOfChars ('i' :: "nsert".toList))
          (some (methodOf "POST" "jobs" "")) = .ok hp ∧
        hp.HandlerName = specIdentifier (bytes "jobs") ('i' :: "nsert".toList) ∧
        hp.HandlerName = bytes "jobs" ++ bytesOfChars (('i').toUpper :: "nsert".toList)) ∧
    (('g').toNat < 0x80 ∧
      bytesOfChars ('g' :: "et".toList) = bytes "get" ∧
      bytes "tables" ++ bytesOfChars (('g').toUpper :: "et".toList) = bytes "tablesGet" ∧
      ∃ hp, handlerParamOf (bytes "tables") (bytesOfChars ('g' :: "et".toList))
          (some (methodOf "GET" "tables" "")) = .ok hp ∧
        hp.HandlerName = specIdentifier (bytes "tables") ('g' :: "et".toList) ∧
        hp.HandlerName = bytes "tables" ++ bytesOfChars (('g').toUpper :: "et".toList)) :=
  ⟨⟨by decide, by decide, by decide,
      handlerName_ascii_first_character (bytes "jobs") (methodOf "POST" "jobs" "") 'i'
        "nsert".toList (by decide)⟩,
    ⟨by decide, by decide, by decide,
      handlerName_ascii_first_character (bytes "tables") (methodOf "GET" "tables" "") 'g'
        "et".toList (by decide)⟩⟩

/-! ## C2, C3: the resolved path -/

/-- C2: for every method whose `FlatPath` is empty (and whose name is not, so
that there is a descriptor), the descriptor's `Path` is the primary path when
that starts with "/", and "/" followed by the primary path otherwise. -/
theorem path_of_primary (resourceName methodName : GoString) (method : Method)
    (hflat : method.FlatPath = []) (hname : methodName ≠ []) :
    ∃ hp, handlerParamOf resourceName methodName (some method) = .ok hp ∧
      (method.Path.head? = some 0x2F → hp.Path = method.Path) ∧
      (method.Path.head? ≠ some 0x2F → hp.Path = bytes "/" ++ method.Path) := by
  obtain ⟨b, rest, rfl⟩ := List.exists_cons_of_ne_nil hname
  refine ⟨_, handlerParamOf_cons _ _ _ _, ?_, ?_⟩
  · intro h
    simp [specDescriptor, specPath, hflat, h]
  · intro h
    simp [specDescriptor, specPath, hflat, h, bytes_slash]

/-- C2, witness: the primary path `jobs/insert` resolves to `/jobs/insert`. -/
theorem path_of_primary_witness :
    (methodOf "POST" "jobs/insert" "").FlatPath = [] ∧ bytes "insert" ≠ [] ∧
      bytes "/" ++ (methodOf "POST" "jobs/insert" "").Path = bytes "/jobs/insert" ∧
      ∃ hp, handlerParamOf (bytes "jobs") (bytes "insert")
          (some (methodOf "POST" "jobs/insert" "")) = .ok hp ∧
        ((methodOf "POST" "jobs/insert" "").Path.head? = some 0x2F →
          hp.Path = (methodOf "POST" "jobs/insert" "").Path) ∧
        ((methodOf "POST" "jobs/insert" "").Path.head? ≠ some 0x2F →
          hp.Path = bytes "/" ++ (methodOf "POST" "jobs/insert" "").Path) :=
  ⟨by decide, by decide, by decide,
    path_of_primary (bytes "jobs") (bytes "insert") (methodOf "POST" "jobs/insert" "")
      (by decide) (by decide)⟩

/-- C3: for every method whose `FlatPath` is not empty (and whose name is not
empty either), the descriptor's `Path` is the flattened path when that starts
with "/", and "/" followed by the flattened path otherwise; the descriptor is
the same whatever stands in the primary path. -/
theorem path_of_flat (resourceName methodName : GoString) (method : Method)
    (hflat : method.FlatPath ≠ []) (hname : methodName ≠ []) :
    ∃ hp, handlerParamOf resourceName methodName (some method) = .ok hp ∧
      (method.FlatPath.head? = some 0x2F → hp.Path = method.FlatPath) ∧
      (method.FlatPath.head? ≠ some 0x2F → hp.Path = bytes "/" ++ method.FlatPath) ∧
      ∀ primary : GoString,
        handlerParamOf resourceName methodName (some { method with Path := primary }) =
          .ok hp := by
  obtain ⟨b, rest, rfl⟩ := List.exists_cons_of_ne_nil hname
  refine ⟨_, handlerParamOf_cons _ _ _ _, ?_, ?_, ?_⟩
  · intro h
    simp [specDescriptor, specPath, hflat, h]
  · intro h
    simp [specDescriptor, specPath, hflat, h, bytes_slash]
  · intro primary
    rw [handlerParamOf_cons]
    simp [specDescriptor, specPath, hflat]

/-- C3, witness: primary path `a/{id}/b` with flattened path `a/b` resolves to
`/a/b`. -/
theorem path_of_flat_witness :
    (methodOf "GET" "a/\x7bid\x7d/b" "a/b").FlatPath ≠ [] ∧ bytes "get" ≠ [] ∧
      bytes "/" ++ (methodOf "GET" "a/\x7bid\x7d/b" "a/b").FlatPath = bytes "/a/b" ∧
      ∃ hp, handlerParamOf (bytes "a") (bytes "get")
          (some (methodOf "GET" "a/\x7bid\x7d/b" "a/b")) = .ok hp ∧
        ((methodOf "GET" "a/\x7bid\x7d/b" "a/b").FlatPath.head? = some 0x2F →
          hp.Path = (methodOf "GET" "a/\x7bid\x7d/b" "a/b").FlatPath) ∧
        ((methodOf "GET" "a/\x7bid\x7d/b" "a/b").FlatPath.head? ≠ some 0x2F →
          hp.Path = bytes "/" ++ (methodOf "GET" "a/\x7bid\x7d/b" "a/b").FlatPath) ∧
        ∀ primary : GoString,
          handlerParamOf (bytes "a") (bytes "get")
            (some { methodOf "GET" "a/\x7bid\x7d/b" "a/b" with Path := primary }) = .ok hp :=
  ⟨by decide, by decide, by decide,
    path_of_flat (bytes "a") (bytes "get") (methodOf "GET" "a/\x7bid\x7d/b" "a/b")
      (by decide) (by decide)⟩

/-! ## C4, C5: the order of the output -/

theorem less_false_iff (a b : handlerParam) :
    less b a = false ↔
      a.HandlerName = b.HandlerName ∨ strLess a.HandlerName b.HandlerName = true := by
  constructor
  · intro h
    cases hab : strLess a.HandlerName b.HandlerName with
    | true => exact Or.inr rfl
    | false => exact Or.inl (strLess_connex hab h)
  · rintro (h | h)
    · unfold less
      rw [h]
      exact strLess_irrefl _
    · exact strLess_asymm h

/-- C4: in every slice the enumerator can hand to the template, the
`HandlerName` at a position is less than or equal to (equal to, or `<` as Go
compares strings) the `HandlerName` at every later position. -/
theorem output_sorted (v : BigQueryAPI) (out : List handlerParam)
    (h : EnumeratorOutcome v out) (i j : Fin out.length) (hij : i < j) :
    (out.get i).HandlerName = (out.get j).HandlerName ∨
      strLess (out.get i).HandlerName (out.get j).HandlerName = true := by
  obtain ⟨xs, -, -, hs⟩ := h
  exact (less_false_iff _ _).1 (List.pairwise_iff_get.1 hs i j hij)

/-- C4, witness: the three descriptors of `exampleSpec` come out as `jobsInsert`,
`tablesGet`, `tablesList`. -/
theorem output_sorted_witness :
    enumerate exampleSpec = .ok exampleSorted ∧
      ∀ i j : Fin exampleSorted.length, i < j →
        (exampleSorted.get i).HandlerName = (exampleSorted.get j).HandlerName ∨
          strLess (exampleSorted.get i).HandlerName (exampleSorted.get j).HandlerName = true :=
  ⟨by decide, fun i j hij =>
    output_sorted exampleSpec exampleSorted (enumerate_outcome (by decide)) i j hij⟩

/-- C5, the claim as stated fails: `collisionSpec` is a document with distinct
keys whose two methods `get` and `Get` of the resource `a` both get the
`HandlerName` `aGet`; the first of the two descriptors of the output stands
before the second and its `HandlerName` is not less than the second's. -/
theorem order_iff_counterexample :
    collisionSpec.isMap = true ∧
      enumerate collisionSpec = .ok collisionOut ∧
      ∃ i j : Fin collisionOut.length, i < j ∧
        (collisionOut.get i).HandlerName = bytes "aGet" ∧
        (collisionOut.get j).HandlerName = bytes "aGet" ∧
        strLess (collisionOut.get i).HandlerName (collisionOut.get j).HandlerName = false :=
  ⟨by decide, by decide, ⟨0, by decide⟩, ⟨1, by decide⟩, by decide, by decide, by decide,
    by decide⟩

/-- C5, amended: in every slice the enumerator can hand to the template, a
descriptor whose `HandlerName` is less than another's stands before it, a
descriptor that stands before another has a `HandlerName` less than or equal to
the other's, and for two descriptors with different `HandlerName`s the one
stands before the other if and only if its `HandlerName` is the lesser. -/
theorem order_iff_of_names_differ (v : BigQueryAPI) (out : List handlerParam)
    (h : EnumeratorOutcome v out) (i j : Fin out.length) :
    (strLess (out.get i).HandlerName (out.get j).HandlerName = true → i < j) ∧
      (i < j → strLess (out.get j).HandlerName (out.get i).HandlerName = false) ∧
      ((out.get i).HandlerName ≠ (out.get j).HandlerName →
        (i < j ↔ strLess (out.get i).HandlerName (out.get j).HandlerName = true)) := by
  obtain ⟨xs, -, -, hs⟩ := h
  have hsorted := List.pairwise_iff_get.1 hs
  have h1 : strLess (out.get i).HandlerName (out.get j).HandlerName = true → i < j := by
    intro hlt
    rcases lt_trichotomy i j with hij | hij | hij
    · exact hij
    · rw [hij, strLess_irrefl] at hlt
      exact absurd hlt (by simp)
    · have := hsorted j i hij
      unfold less at this
      rw [hlt] at this
      exact absurd this (by simp)
  refine ⟨h1, fun hij => hsorted i j hij, fun hne => ⟨fun hij => ?_, h1⟩⟩
  rcases (less_false_iff _ _).1 (hsorted i j hij) with heq | hlt
  · exact absurd heq hne
  · exact hlt

/-- C5, witness: in the output of `exampleSpec` the descriptor `jobsInsert` at
position 0 and the descriptor `tablesList` at position 2. -/
theorem order_iff_of_names_differ_witness :
    enumerate exampleSpec = .ok exampleSorted ∧
      (exampleSorted.get ⟨0, by decide⟩).HandlerName = bytes "jobsInsert" ∧
      (exampleSorted.get ⟨2, by decide⟩).HandlerName = bytes "tablesList" ∧
      (exampleSorted.get ⟨0, by decide⟩).HandlerName ≠
        (exampleSorted.get ⟨2, by decide⟩).HandlerName ∧
      strLess (bytes "jobsInsert") (bytes "tablesList") = true ∧
      ((⟨0, by decide⟩ : Fin exampleSorted.length) < ⟨2, by decide⟩ ↔
        strLess (exampleSorted.get ⟨0, by decide⟩).HandlerName
          (exampleSorted.get ⟨2, by decide⟩).HandlerName = true) :=
  ⟨by decide, by decide, by decide, by decide, by decide,
    (order_iff_of_names_differ exampleSpec exampleSorted (enumerate_outcome (by decide))
      ⟨0, by decide⟩ ⟨2, by decide⟩).2.2 (by decide)⟩

/-! ## C6: determinism -/

theorem methodPairs_perm (name : GoString) {r s : Resource} (h : r.Methods.Perm s.Methods) :
    (methodPairs name r).Perm (methodPairs name s) :=
  List.Perm.flatMap_right _ h

theorem resourcePairs_perm :
    ∀ (l₁ l₂ : List (GoString × Option Resource)),
      List.Forall₂ (fun a b => a.1 = b.1 ∧ sameMethods a.2 b.2) l₁ l₂ →
      (pairsOf ⟨l₁⟩).Perm (pairsOf ⟨l₂⟩)
  | [], [], _ => List.Perm.refl _
  | [], _ :: _, h => by cases h
  | _ :: _, [], h => by cases h
  | (a1, a2) :: l₁, (b1, b2) :: l₂, h => by
    rw [List.forall₂_cons] at h
    obtain ⟨⟨hname, hsame⟩, hrest⟩ := h
    have ih := resourcePairs_perm l₁ l₂ hrest
    simp only [pairsOf, List.flatMap_cons] at ih ⊢
    refine List.Perm.append ?_ ih
    simp only at hname hsame
    subst hname
    cases a2 with
    | none =>
      cases b2 with
      | none => exact List.Perm.refl _
      | some s => exact absurd hsame (by simp [sameMethods])
    | some r =>
      cases b2 with
      | none => exact absurd hsame (by simp [sameMethods])
      | some s => exact methodPairs_perm a1 hsame

theorem pairsOf_perm {v w : BigQueryAPI} (h : SameSpec v w) : (pairsOf v).Perm (pairsOf w) := by
  obtain ⟨l, hp, hf⟩ := h
  exact (List.Perm.flatMap_right _ hp).trans (resourcePairs_perm l w.Resources hf)

theorem sameMethods_refl (r : Option Resource) : sameMethods r r := by
  cases r with
  | none => trivial
  | some r => exact List.Perm.refl _

theorem sameSpec_refl (v : BigQueryAPI) : SameSpec v v := by
  refine ⟨v.Resources, List.Perm.refl _, ?_⟩
  induction v.Resources with
  | nil => exact List.Forall₂.nil
  | cons a l ih => exact List.Forall₂.cons ⟨rfl, sameMethods_refl _⟩ ih

theorem outcome_perm {v w : BigQueryAPI} (h : SameSpec v w) {l₁ l₂ : List handlerParam}
    (h₁ : EnumeratorOutcome v l₁) (h₂ : EnumeratorOutcome w l₂) : l₁.Perm l₂ := by
  obtain ⟨xs, hxs, hp₁, -⟩ := h₁
  obtain ⟨ys, hys, hp₂, -⟩ := h₂
  obtain ⟨-, rfl⟩ := (collect_ok_iff v xs).1 hxs
  obtain ⟨-, rfl⟩ := (collect_ok_iff w ys).1 hys
  exact hp₁.trans (((pairsOf_perm h).map _).trans hp₂.symm)

theorem names_sorted {l : List handlerParam} (h : l.Pairwise fun a b => less b a = false) :
    (l.map fun d => d.HandlerName).Pairwise fun a b => strLess b a = false :=
  List.pairwise_map.2 h

theorem sameSpec_example : SameSpec exampleSpec exampleSpecReordered :=
  ⟨[ (bytes "jobs", some { Methods :=
        [ (bytes "insert", some (methodOf "POST" "jobs" "")) ] }),
      (bytes "tables", some { Methods :=
        [ (bytes "list", some (methodOf "GET" "tables" "")),
          (bytes "get", some (methodOf "GET" "tables/\x7bid\x7d" "tables/id")) ] }) ],
    List.Perm.swap _ _ _,
    List.Forall₂.cons ⟨rfl, List.Perm.refl _⟩
      (List.Forall₂.cons ⟨rfl, List.Perm.swap _ _ _⟩ List.Forall₂.nil)⟩

/-- C6, the claim as stated fails: `collisionSpec` and `collisionSpecSwapped`
are the same document (distinct keys, the methods `get` and `Get` of the
resource `a` visited in the two possible orders). Both derived `HandlerName`s
are `aGet`, the sort leaves the two descriptors in the order of the iteration,
and the two runs hand different slices to the template, which renders different
texts. Both slices are also outcomes of one and the same run under the contract
of the sort. -/
theorem determinism_counterexample :
    collisionSpec.isMap = true ∧ SameSpec collisionSpec collisionSpecSwapped ∧
      enumerate collisionSpec = .ok collisionOut ∧
      enumerate collisionSpecSwapped = .ok collisionOut.reverse ∧
      EnumeratorOutcome collisionSpec collisionOut.reverse ∧
      collisionOut ≠ collisionOut.reverse ∧
      render collisionOut ≠ render collisionOut.reverse := by
  refine ⟨by decide, ?_, by decide, by decide, ?_, by decide, by decide⟩
  · exact ⟨collisionSpec.Resources, List.Perm.refl _,
      List.Forall₂.cons ⟨rfl, List.Perm.swap _ _ _⟩ List.Forall₂.nil⟩
  · exact ⟨collisionOut, by decide, List.reverse_perm _, by decide⟩

/-- C6, amended: take two runs over the same document, whatever the orders in
which they visit the resources map and the methods maps and whatever valid
outcome the sort has in each. The two slices handed to the template hold the
same sequence of `HandlerName`s; and when descriptors with the same
`HandlerName` are equal (in particular when the `HandlerName`s are pairwise
distinct), the two slices are equal and so are the rendered texts. -/
theorem determinism_up_to_ties (v w : BigQueryAPI) (l₁ l₂ : List handlerParam)
    (hvw : SameSpec v w) (h₁ : EnumeratorOutcome v l₁) (h₂ : EnumeratorOutcome w l₂) :
    (l₁.map fun d => d.HandlerName) = (l₂.map fun d => d.HandlerName) ∧
      ((∀ a ∈ l₁, ∀ b ∈ l₁, a.HandlerName = b.HandlerName → a = b) →
        l₁ = l₂ ∧ render l₁ = render l₂) := by
  have hperm := outcome_perm hvw h₁ h₂
  obtain ⟨-, -, -, hs₁⟩ := h₁
  obtain ⟨-, -, -, hs₂⟩ := h₂
  constructor
  · exact eq_of_perm_of_pairwise _ _ _ (hperm.map _) (names_sorted hs₁) (names_sorted hs₂)
      (fun a _ b _ hab hba => strLess_connex hba hab)
  · intro hties
    have : l₁ = l₂ :=
      eq_of_perm_of_pairwise _ _ _ hperm hs₁ hs₂
        (fun a ha b hb hab hba => hties a ha b hb (strLess_connex hba hab))
    exact ⟨this, by rw [this]⟩

/-- C6, witness: `exampleSpec` and `exampleSpecReordered` are the same document
visited in two orders; both runs hand `exampleSorted` to the template. -/
theorem determinism_up_to_ties_witness :
    SameSpec exampleSpec exampleSpecReordered ∧
      enumerate exampleSpec = .ok exampleSorted ∧
      enumerate exampleSpecReordered = .ok exampleSorted ∧
      (∀ a ∈ exampleSorted, ∀ b ∈ exampleSorted, a.HandlerName = b.HandlerName → a = b) ∧
      (exampleSorted.map fun d => d.HandlerName) = (exampleSorted.map fun d => d.HandlerName) ∧
      ((∀ a ∈ exampleSorted, ∀ b ∈ exampleSorted, a.HandlerName = b.HandlerName → a = b) →
        exampleSorted = exampleSorted ∧ render exampleSorted = render exampleSorted) :=
  ⟨sameSpec_example, by decide, by decide, by decide,
    determinism_up_to_ties exampleSpec exampleSpecReordered exampleSorted exampleSorted
      sameSpec_example (enumerate_outcome (by decide)) (enumerate_outcome (by decide))⟩

/-! ## C7: completeness of the enumeration -/

theorem methodPairs_length (name : GoString) (ms : List (GoString × Option Method))
    (hm : ∀ m ∈ ms, m.1 ≠ [] ∧ ∃ method, m.2 = some method) :
    (methodPairs name ⟨ms⟩).length = ms.length := by
  induction ms with
  | nil => rfl
  | cons m ms ih =>
    obtain ⟨methodName, mo⟩ := m
    obtain ⟨-, method, hmethod⟩ := hm (methodName, mo) (List.mem_cons_self _ _)
    simp only at hmethod
    subst hmethod
    have hcons : methodPairs name ⟨(methodName, some method) :: ms⟩ =
        (name, methodName, method) :: methodPairs name ⟨ms⟩ := by
      simp [methodPairs]
    rw [hcons, List.length_cons, ih (fun x hx => hm x (List.mem_cons_of_mem _ hx)),
      List.length_cons]

theorem pairsOf_length {v : BigQueryAPI} (hv : wellFormed v) :
    (pairsOf v).length = methodCount v := by
  obtain ⟨rs⟩ := v
  induction rs with
  | nil => rfl
  | cons e rest ih =>
    obtain ⟨name, ro⟩ := e
    obtain ⟨r, hr, hm⟩ := hv (name, ro) (List.mem_cons_self _ _)
    simp only at hr
    subst hr
    have hp : pairsOf ⟨(name, some r) :: rest⟩ = methodPairs name r ++ pairsOf ⟨rest⟩ := by
      simp [pairsOf]
    have hc : methodCount ⟨(name, some r) :: rest⟩ = r.Methods.length + methodCount ⟨rest⟩ := by
      simp [methodCount]
    rw [hp, hc, List.length_append, ih (fun x hx => hv x (List.mem_cons_of_mem _ hx)),
      methodPairs_length name r.Methods hm]

theorem descriptorsOf_length {v : BigQueryAPI} (hv : wellFormed v) :
    (descriptorsOf v).length = methodCount v := by
  rw [← pairsOf_length hv]
  simp [descriptorsOf]

theorem wellFormed_remove {pre post : List (GoString × Option Resource)}
    {e : GoString × Option Resource} (h : wellFormed ⟨pre ++ e :: post⟩) :
    wellFormed ⟨pre ++ post⟩ := by
  intro x hx
  refine h x ?_
  simp only [List.mem_append, List.mem_cons] at hx ⊢
  tauto

theorem descriptorsOf_remove_empty (pre post : List (GoString × Option Resource))
    (name : GoString) :
    descriptorsOf ⟨pre ++ (name, some ⟨[]⟩) :: post⟩ = descriptorsOf ⟨pre ++ post⟩ := by
  simp [descriptorsOf, pairsOf, methodPairs]

theorem not_wellFormed_of_hasEmptyName {v : BigQueryAPI} (h : hasEmptyName v) :
    ¬ wellFormed v := by
  intro hw
  obtain ⟨e, he, r, hr, m, hm, hname⟩ := h
  obtain ⟨r', hr', hall⟩ := hw e he
  rw [hr] at hr'
  injection hr' with hr'
  subst hr'
  exact (hall m hm).1 hname

theorem wellFormed_iff (v : BigQueryAPI) : wellFormed v ↔ noNil v ∧ ¬ hasEmptyName v := by
  constructor
  · intro hw
    refine ⟨fun e he => ?_, fun h => not_wellFormed_of_hasEmptyName h hw⟩
    obtain ⟨r, hr, hall⟩ := hw e he
    exact ⟨r, hr, fun m hm => (hall m hm).2⟩
  · rintro ⟨hnil, hempty⟩ e he
    obtain ⟨r, hr, hall⟩ := hnil e he
    exact ⟨r, hr, fun m hm => ⟨fun hname => hempty ⟨e, he, r, hr, m, hm, hname⟩, hall m hm⟩⟩

/-- C7, the claim as stated fails: in `nullMethodSpec` the resource `a` has the
one method `get`, given as `null`. No method name is empty and there is one
method, but `method.FlatPath` (line 96) dereferences the nil pointer: the loops
and the enumerator end in a panic, no slice is handed to the template, and the
pair (`a`, `get`) yields no descriptor. -/
theorem enumerator_complete_counterexample :
    nullMethodSpec.isMap = true ∧ ¬ hasEmptyName nullMethodSpec ∧
      methodCount nullMethodSpec = 1 ∧
      collectHandlerParams nullMethodSpec = .error .nilPointerDereference ∧
      enumerate nullMethodSpec = .error .nilPointerDereference ∧
      ¬ ∃ out, EnumeratorOutcome nullMethodSpec out := by
  refine ⟨by decide, ?_, by decide, by decide, by decide, ?_⟩
  · simp [hasEmptyName, nullMethodSpec, bytes, bytesOfChars, utf8EncodeRune]
  · rintro ⟨out, xs, hxs, -⟩
    have hc : collectHandlerParams nullMethodSpec = .error .nilPointerDereference := by decide
    rw [hc] at hxs
    exact absurd hxs (by simp)

/-- C7, amended: for every document in which no resource and no method is a nil
pointer and no method name is empty, the enumerator hands a slice to the
template (the executable enumerator returns one), and every slice `out` it can
hand over is a permutation of the descriptors of all (resource, method) pairs,
each descriptor being the resolved path, the method's HTTP verb and the derived
identifier; its length is the number of methods of all resources, which is the
number of pairs; and a resource without methods contributes nothing: without it
the output is the same. -/
theorem enumerator_complete (v : BigQueryAPI) (hnil : noNil v) (hnames : ¬ hasEmptyName v) :
    (∃ out, enumerate v = .ok out ∧ EnumeratorOutcome v out) ∧
      ∀ out, EnumeratorOutcome v out →
        out.Perm ((pairsOf v).map fun p => specDescriptor p.1 p.2.1 p.2.2) ∧
        out.length = methodCount v ∧
        (pairsOf v).length = methodCount v ∧
        ∀ pre post name, v.Resources = pre ++ (name, some ⟨[]⟩) :: post →
          EnumeratorOutcome ⟨pre ++ post⟩ out := by
  have hv : wellFormed v := (wellFormed_iff v).2 ⟨hnil, hnames⟩
  constructor
  · have hc := (collect_ok_iff v (descriptorsOf v)).2 ⟨hv, rfl⟩
    have he : enumerate v = .ok (sortSlice (descriptorsOf v)) := by
      simp [enumerate, hc]
    exact ⟨_, he, enumerate_outcome he⟩
  · rintro out ⟨xs, hxs, hp, hs⟩
    obtain ⟨-, rfl⟩ := (collect_ok_iff v xs).1 hxs
    have hlen := descriptorsOf_length hv
    refine ⟨hp, by rw [hp.length_eq, hlen], pairsOf_length hv, ?_⟩
    intro pre post name hres
    obtain ⟨rs⟩ := v
    simp only at hres
    subst hres
    refine ⟨descriptorsOf ⟨pre ++ post⟩, ?_, ?_, hs⟩
    · exact (collect_ok_iff _ _).2 ⟨wellFormed_remove hv, rfl⟩
    · rw [← descriptorsOf_remove_empty pre post name]
      exact hp

/-- C7, witness: `exampleSpecWithEmpty` has no nil pointer and no empty name, the
three methods of `exampleSpec` and a resource `empty` without methods; its
output is that of `exampleSpec`. -/
theorem enumerator_complete_witness :
    noNil exampleSpecWithEmpty ∧ ¬ hasEmptyName exampleSpecWithEmpty ∧
      enumerate exampleSpecWithEmpty = .ok exampleSorted ∧
      enumerate exampleSpec = .ok exampleSorted ∧
      methodCount exampleSpecWithEmpty = 3 ∧
      exampleSorted.length = methodCount exampleSpecWithEmpty ∧
      EnumeratorOutcome exampleSpec exampleSorted :=
  have hout : EnumeratorOutcome exampleSpecWithEmpty exampleSorted :=
    enumerate_outcome (by decide)
  have hw : noNil exampleSpecWithEmpty ∧ ¬ hasEmptyName exampleSpecWithEmpty :=
    (wellFormed_iff _).1 (outcome_wellFormed hout)
  ⟨hw.1, hw.2, by decide, by decide, by decide,
    ((enumerator_complete exampleSpecWithEmpty hw.1 hw.2).2 exampleSorted hout).2.1,
    ((enumerator_complete exampleSpecWithEmpty hw.1 hw.2).2 exampleSorted hout).2.2.2
      [(bytes "tables", some { Methods :=
          [ (bytes "list", some (methodOf "GET" "tables" "")),
            (bytes "get", some (methodOf "GET" "tables/\x7bid\x7d" "tables/id")) ] })]
      [(bytes "jobs", some { Methods :=
          [ (bytes "insert", some (methodOf "POST" "jobs" "")) ] })]
      (bytes "empty") rfl⟩

/-! ## C8, C9: the rendered text -/

theorem trim_header :
    trimRight (bytes "// Code generated by internal/cmd/generator. DO NOT EDIT!\npackage server\n\nimport \"net/http\"\n\ntype Handler struct \x7b\n\tPath       string\n\tHTTPMethod string\n\tHandler    http.Handler\n\x7d\n\nvar handlers = []*Handler\x7b\n") =
      bytes "// Code generated by internal/cmd/generator. DO NOT EDIT!\npackage server\n\nimport \"net/http\"\n\ntype Handler struct \x7b\n\tPath       string\n\tHTTPMethod string\n\tHandler    http.Handler\n\x7d\n\nvar handlers = []*Handler\x7b" := by
  decide

theorem trim_entry :
    trimRight (bytes "Handler\x7b\x7d,\n\t\x7d,\n") = bytes "Handler\x7b\x7d,\n\t\x7d," := by
  decide

theorem trim_list_end : trimRight (bytes "\n\x7d\n\nvar (\n") = bytes "\n\x7d\n\nvar (" := by
  decide

theorem trim_assertion : trimRight (bytes "Handler\x7b\x7d\n") = bytes "Handler\x7b\x7d" := by
  decide

theorem trim_var_end : trimRight (bytes "\n)\n\n") = bytes "\n)" := by
  decide

/-- The rendered text, part by part. -/
theorem render_eq (handlerParams : List handlerParam) :
    render handlerParams =
      bytes "// Code generated by internal/cmd/generator. DO NOT EDIT!\npackage server\n\nimport \"net/http\"\n\ntype Handler struct \x7b\n\tPath       string\n\tHTTPMethod string\n\tHandler    http.Handler\n\x7d\n\nvar handlers = []*Handler\x7b" ++
      ((handlerParams.flatMap fun d =>
          bytes "\n\t\x7b\n\t\tPath: \"" ++ (d.Path ++ (bytes "\",\n\t\tHTTPMethod: \"" ++
            (d.HTTPMethod ++ (bytes "\",\n\t\tHandler:    &" ++
              (d.HandlerName ++ bytes "Handler\x7b\x7d,\n\t\x7d,")))))) ++
        (bytes "\n\x7d\n\nvar (" ++
          ((handlerParams.flatMap fun d =>
              bytes "\n  _ http.Handler = &" ++ (d.HandlerName ++ bytes "Handler\x7b\x7d")) ++
            (bytes "\n)" ++
              ((handlerParams.flatMap fun d =>
                  bytes "\ntype " ++ (d.HandlerName ++ bytes "Handler struct \x7b\n\x7d\n")) ++
                bytes "\n"))))) := by
  simp only [render, tmpl, List.flatMap_cons, List.flatMap_nil, execNode, execItem, fieldValue,
    List.append_nil, trim_header, trim_entry, trim_list_end, trim_assertion, trim_var_end]

theorem infix_flatMap {α β : Type} (f : α → List β) {a : α} {l : List α} (h : a ∈ l) :
    f a <:+: l.flatMap f := by
  obtain ⟨s, t, rfl⟩ := List.append_of_mem h
  exact ⟨s.flatMap f, t.flatMap f, by simp⟩

/-- C8: for every slice of descriptors and every descriptor `d` in it, the
rendered text contains the registration entry of `d` (its `Path`, its
`HTTPMethod` and the handler `&<HandlerName>Handler{}`), the assertion line
`_ http.Handler = &<HandlerName>Handler{}`, and the empty type declaration
`type <HandlerName>Handler struct {`, newline, `}`. -/
theorem render_contains (handlerParams : List handlerParam) (d : handlerParam)
    (hd : d ∈ handlerParams) :
    (bytes "\n\t\x7b\n\t\tPath: \"" ++ (d.Path ++ (bytes "\",\n\t\tHTTPMethod: \"" ++
        (d.HTTPMethod ++ (bytes "\",\n\t\tHandler:    &" ++
          (d.HandlerName ++ bytes "Handler\x7b\x7d,\n\t\x7d,"))))) <:+: render handlerParams) ∧
      (bytes "\n  _ http.Handler = &" ++ (d.HandlerName ++ bytes "Handler\x7b\x7d") <:+:
        render handlerParams) ∧
      (bytes "\ntype " ++ (d.HandlerName ++ bytes "Handler struct \x7b\n\x7d\n") <:+:
        render handlerParams) := by
  have hentry := infix_flatMap (fun d : handlerParam =>
    bytes "\n\t\x7b\n\t\tPath: \"" ++ (d.Path ++ (bytes "\",\n\t\tHTTPMethod: \"" ++
      (d.HTTPMethod ++ (bytes "\",\n\t\tHandler:    &" ++
        (d.HandlerName ++ bytes "Handler\x7b\x7d,\n\t\x7d,")))))) hd
  have hassert := infix_flatMap (fun d : handlerParam =>
    bytes "\n  _ http.Handler = &" ++ (d.HandlerName ++ bytes "Handler\x7b\x7d")) hd
  have htype := infix_flatMap (fun d : handlerParam =>
    bytes "\ntype " ++ (d.HandlerName ++ bytes "Handler struct \x7b\n\x7d\n")) hd
  rw [render_eq]
  refine ⟨?_, ?_, ?_⟩
  · refine List.IsInfix.trans hentry ?_
    refine List.IsInfix.trans ?_ (List.suffix_append _ _).isInfix
    exact (List.prefix_append _ _).isInfix
  · refine List.IsInfix.trans hassert ?_
    refine List.IsInfix.trans ?_ (List.suffix_append _ _).isInfix
    refine List.IsInfix.trans ?_ (List.suffix_append _ _).isInfix
    refine List.IsInfix.trans ?_ (List.suffix_append _ _).isInfix
    exact (List.prefix_append _ _).isInfix
  · refine List.IsInfix.trans htype ?_
    refine List.IsInfix.trans ?_ (List.suffix_append _ _).isInfix
    refine List.IsInfix.trans ?_ (List.suffix_append _ _).isInfix
    refine List.IsInfix.trans ?_ (List.suffix_append _ _).isInfix
    refine List.IsInfix.trans ?_ (List.suffix_append _ _).isInfix
    refine List.IsInfix.trans ?_ (List.suffix_append _ _).isInfix
    exact (List.prefix_append _ _).isInfix

/-- C8, witness: the document with the one resource `widgets` and the one
method `list` (verb GET, path `widgets`) yields the one descriptor
`widgetsList`, and the text rendered for it holds the entry with the path
`/widgets`, the verb `GET` and the handler `&widgetsListHandler{}`, the assertion
for `widgetsListHandler` and the type `widgetsListHandler`. -/
theorem render_contains_witness :
    enumerate widgetsSpec = .ok [widgetsList] ∧
      (bytes "\n\t\x7b\n\t\tPath: \"/widgets\",\n\t\tHTTPMethod: \"GET\",\n\t\tHandler:    &widgetsListHandler\x7b\x7d,\n\t\x7d," <:+:
        render [widgetsList]) ∧
      (bytes "\n  _ http.Handler = &widgetsListHandler\x7b\x7d" <:+: render [widgetsList]) ∧
      (bytes "\ntype widgetsListHandler struct \x7b\n\x7d\n" <:+: render [widgetsList]) :=
  ⟨by decide, render_contains [widgetsList] widgetsList (List.mem_singleton_self _)⟩

/-- C9: for a document without resources the enumerator yields the empty slice
(the loops, the executable sort and every outcome of the sort); the rendered
text is the fixed header followed by `var handlers = []*Handler{`, newline, `}`
and `var (`, newline, `)`: no registration entry, no assertion and no generated
handler type; and in a world that decodes such a document and executes the
template, `run` reaches `format.Source` with that text and, when the
formatting succeeds, ends with the write of the formatted text. -/
theorem empty_input (w : World) (file : File) (hdecode : w.unmarshal = .ok ⟨[]⟩)
    (hexecute : w.executesTemplate) :
    collectHandlerParams ⟨[]⟩ = .ok [] ∧ enumerate ⟨[]⟩ = .ok [] ∧
      (∀ out, EnumeratorOutcome ⟨[]⟩ out → out = []) ∧
      render [] =
        bytes "// Code generated by internal/cmd/generator. DO NOT EDIT!\npackage server\n\nimport \"net/http\"\n\ntype Handler struct \x7b\n\tPath       string\n\tHTTPMethod string\n\tHandler    http.Handler\n\x7d\n\nvar handlers = []*Handler\x7b\n\x7d\n\nvar (\n)\n" ∧
      ¬ (bytes "Path: " <:+: render []) ∧
      ¬ (bytes "_ http.Handler" <:+: render []) ∧
      ¬ (bytes "Handler struct \x7b\n\x7d" <:+: render []) ∧
      run w file =
        match w.formatSource (render []) with
        | .error err => (.returned (some err), file)
        | .ok buf => (.returned (w.writeFile buf file).1, (w.writeFile buf file).2) := by
  refine ⟨rfl, rfl, ?_, by decide, by decide, by decide, by decide, ?_⟩
  · rintro out ⟨xs, hxs, hp, -⟩
    have hx : xs = [] := by
      have : collectHandlerParams ⟨[]⟩ = .ok [] := rfl
      rw [this] at hxs
      injection hxs with hxs
      exact hxs.symm
    subst hx
    exact List.Perm.eq_nil hp
  · have henum : enumerate ⟨[]⟩ = .ok [] := rfl
    simp only [run, hdecode, henum, hexecute []]

/-- C9, witness: `exampleWorld` on the document without resources; the file
`old` is replaced by the rendered text. -/
theorem empty_input_witness :
    (exampleWorld ⟨[]⟩).unmarshal = .ok ⟨[]⟩ ∧ (exampleWorld ⟨[]⟩).executesTemplate ∧
      run (exampleWorld ⟨[]⟩) (some (bytes "old")) = (.returned none, some (render [])) :=
  ⟨rfl, fun _ => rfl,
    (empty_input (exampleWorld ⟨[]⟩) (some (bytes "old")) rfl (fun _ => rfl)).2.2.2.2.2.2.2⟩

/-! ## C10: no write on failure -/

/-- C10: when decoding fails, when executing the template fails or when the
formatting fails, `run` returns that error and the file is as before (so it is
when the enumeration panics); when all of them succeed, `run` ends with the
write of the formatted text; and whenever the file is not as before, decoding,
enumeration, execution and formatting have succeeded and the file is what the
write of the formatted text left. -/
theorem no_write_on_failure (w : World) (file : File) :
    (∀ err, w.unmarshal = .error err → run w file = (.returned (some err), file)) ∧
      (∀ v handlerParams err, w.unmarshal = .ok v → enumerate v = .ok handlerParams →
        w.execute handlerParams = .error err → run w file = (.returned (some err), file)) ∧
      (∀ v handlerParams b err, w.unmarshal = .ok v → enumerate v = .ok handlerParams →
        w.execute handlerParams = .ok b → w.formatSource b = .error err →
        run w file = (.returned (some err), file)) ∧
      (∀ v p, w.unmarshal = .ok v → enumerate v = .error p →
        run w file = (.panicked p, file)) ∧
      (∀ v handlerParams b buf, w.unmarshal = .ok v → enumerate v = .ok handlerParams →
        w.execute handlerParams = .ok b → w.formatSource b = .ok buf →
        run w file = (.returned (w.writeFile buf file).1, (w.writeFile buf file).2)) ∧
      ((run w file).2 ≠ file →
        ∃ v handlerParams b buf, w.unmarshal = .ok v ∧ enumerate v = .ok handlerParams ∧
          w.execute handlerParams = .ok b ∧ w.formatSource b = .ok buf ∧
          (run w file).2 = (w.writeFile buf file).2) := by
  refine ⟨?_, ?_, ?_, ?_, ?_, ?_⟩
  · intro err h
    simp [run, h]
  · intro v handlerParams err h1 h2 h3
    simp [run, h1, h2, h3]
  · intro v handlerParams b err h1 h2 h3 h4
    simp [run, h1, h2, h3, h4]
  · intro v p h1 h2
    simp [run, h1, h2]
  · intro v handlerParams b buf h1 h2 h3 h4
    simp [run, h1, h2, h3, h4]
  · intro hne
    cases h1 : w.unmarshal with
    | error err => simp [run, h1] at hne
    | ok v =>
      cases h2 : enumerate v with
      | error p => simp [run, h1, h2] at hne
      | ok handlerParams =>
        cases h3 : w.execute handlerParams with
        | error err => simp [run, h1, h2, h3] at hne
        | ok b =>
          cases h4 : w.formatSource b with
          | error err => simp [run, h1, h2, h3, h4] at hne
          | ok buf =>
            exact ⟨v, handlerParams, b, buf, rfl, h2, h3, h4, by simp [run, h1, h2, h3, h4]⟩

/-- C10, witness: in `failingFormatWorld` the formatting fails; `run` returns
that error and the file `old` is as before. -/
theorem no_write_on_failure_witness :
    enumerate widgetsSpec = .ok [widgetsList] ∧
      (failingFormatWorld widgetsSpec).formatSource (render [widgetsList]) =
        .error { msg := bytes "format error" } ∧
      run (failingFormatWorld widgetsSpec) (some (bytes "old")) =
        (.returned (some { msg := bytes "format error" }), some (bytes "old")) :=
  ⟨by decide, rfl,
    (no_write_on_failure (failingFormatWorld widgetsSpec) (some (bytes "old"))).2.2.1
      widgetsSpec [widgetsList] (render [widgetsList]) { msg := bytes "format error" }
      rfl (by decide) rfl rfl⟩

/-! ## C11: the leading separator -/

theorem head_slash (p : GoString) :
    (if p.head? = some 0x2F then p else 0x2F :: p).head? = some 0x2F := by
  split
  · assumption
  · rfl

theorem specPath_head (method : Method) : (specPath method).head? = some 0x2F :=
  head_slash _

theorem mem_descriptorsOf {v : BigQueryAPI} {d : handlerParam} (hd : d ∈ descriptorsOf v) :
    ∃ resourceName methodName method, d = specDescriptor resourceName methodName method := by
  obtain ⟨p, -, rfl⟩ := List.mem_map.1 hd
  exact ⟨_, _, _, rfl⟩

theorem mem_outcome {v : BigQueryAPI} {out : List handlerParam} (h : EnumeratorOutcome v out)
    {d : handlerParam} (hd : d ∈ out) : d ∈ descriptorsOf v := by
  obtain ⟨xs, hxs, hp, -⟩ := h
  obtain ⟨-, rfl⟩ := (collect_ok_iff v xs).1 hxs
  exact hp.mem_iff.1 hd

/-- C11: for every document and every descriptor of a slice the enumerator can
hand to the template, the `Path` is not empty and begins with "/" (its first
byte is 0x2F, and `strings.HasPrefix` says so), whatever the method's two path
fields hold. -/
theorem path_leading_separator (v : BigQueryAPI) (out : List handlerParam)
    (h : EnumeratorOutcome v out) (d : handlerParam) (hd : d ∈ out) :
    d.Path ≠ [] ∧ d.Path.head? = some 0x2F ∧ (∃ rest, d.Path = 0x2F :: rest) ∧
      HasPrefix d.Path (bytes "/") = true := by
  obtain ⟨resourceName, methodName, method, rfl⟩ := mem_descriptorsOf (mem_outcome h hd)
  have hhead : (specDescriptor resourceName methodName method).Path.head? = some 0x2F :=
    specPath_head method
  cases hp : (specDescriptor resourceName methodName method).Path with
  | nil => rw [hp] at hhead; simp at hhead
  | cons b rest =>
    rw [hp] at hhead
    simp only [List.head?_cons, Option.some.injEq] at hhead
    subst hhead
    refine ⟨by simp, rfl, ⟨rest, rfl⟩, ?_⟩
    simp [HasPrefix, bytes_slash]

/-- C11, witness: the descriptor of `tables`/`list` in the output of
`exampleSpec` has the path `/tables`. -/
theorem path_leading_separator_witness :
    enumerate exampleSpec = .ok exampleSorted ∧
      ({ Path := bytes "/tables", HTTPMethod := bytes "GET", HandlerName := bytes "tablesList" } :
        handlerParam) ∈ exampleSorted ∧
      (bytes "/tables" ≠ [] ∧ (bytes "/tables").head? = some 0x2F ∧
        (∃ rest, bytes "/tables" = 0x2F :: rest) ∧ HasPrefix (bytes "/tables") (bytes "/") = true) :=
  ⟨by decide, by decide,
    path_leading_separator exampleSpec exampleSorted (enumerate_outcome (by decide))
      { Path := bytes "/tables", HTTPMethod := bytes "GET", HandlerName := bytes "tablesList" }
      (by decide)⟩

/-! ## C12: failure of the enumeration -/

/-- C13, the claim as stated fails in its second example: for the resource `a`
with the method `bc` and the resource `aB` with the method `c` the enumerator
succeeds, and the two `HandlerName`s are `aBc` and `aBC`, which differ (the first
byte of the method name `c` is upper-cased as well). -/
theorem prefix_collision_counterexample :
    prefixCollisionSpec.isMap = true ∧
      (pairsOf prefixCollisionSpec).map (fun p => (p.1, p.2.1)) =
        [(bytes "a", bytes "bc"), (bytes "aB", bytes "c")] ∧
      (∃ hp, handlerParamOf (bytes "a") (bytes "bc") (some (methodOf "GET" "x" "")) = .ok hp ∧
        hp.HandlerName = bytes "aBc") ∧
      (∃ hp, handlerParamOf (bytes "aB") (bytes "c") (some (methodOf "GET" "y" "")) = .ok hp ∧
        hp.HandlerName = bytes "aBC") ∧
      bytes "aBc" ≠ bytes "aBC" ∧
      enumerate prefixCollisionSpec = .ok prefixCollisionOut ∧
      prefixCollisionOut.map (fun d => d.HandlerName) = [bytes "aBC", bytes "aBc"] ∧
      (prefixCollisionOut.map fun d => d.HandlerName).Nodup := by
  refine ⟨by decide, by decide, ⟨_, rfl, by decide⟩, ⟨_, rfl, by decide⟩, by decide, by decide,
    by decide, by decide⟩

/-- C13, amended: there are documents with distinct keys and two different
(resource, method) pairs on which the enumerator succeeds and returns two
descriptors with the same `HandlerName`: the resource `a` with the methods `get`
and `Get` (both `aGet`), and the resource `a` with the method `bC` next to the
resource `aB` with the method `c` (both `aBC`). So the `HandlerName`s of an
output list need not be pairwise distinct. -/
theorem identifier_collision :
    (collisionSpec.isMap = true ∧
        (pairsOf collisionSpec).map (fun p => (p.1, p.2.1)) =
          [(bytes "a", bytes "get"), (bytes "a", bytes "Get")] ∧
        (bytes "a", bytes "get") ≠ (bytes "a", bytes "Get") ∧
        enumerate collisionSpec = .ok collisionOut ∧
        collisionOut.map (fun d => d.HandlerName) = [bytes "aGet", bytes "aGet"]) ∧
      (crossCollisionSpec.isMap = true ∧
        (pairsOf crossCollisionSpec).map (fun p => (p.1, p.2.1)) =
          [(bytes "a", bytes "bC"), (bytes "aB", bytes "c")] ∧
        (bytes "a", bytes "bC") ≠ (bytes "aB", bytes "c") ∧
        enumerate crossCollisionSpec = .ok crossCollisionOut ∧
        crossCollisionOut.map (fun d => d.HandlerName) = [bytes "aBC", bytes "aBC"]) ∧
      ¬ ∀ (v : BigQueryAPI) (out : List handlerParam), v.isMap = true →
          EnumeratorOutcome v out → (out.map fun d => d.HandlerName).Nodup := by
  refine ⟨⟨by decide, by decide, by decide, by decide, by decide⟩,
    ⟨by decide, by decide, by decide, by decide, by decide⟩, ?_⟩
  intro hall
  have hnodup := hall collisionSpec collisionOut (by decide) (enumerate_outcome (by decide))
  revert hnodup
  decide

/-! ## C14: determinism for distinct identifiers -/

theorem outcome_unique {v w : BigQueryAPI} (hvw : SameSpec v w) {l₁ l₂ : List handlerParam}
    (h₁ : EnumeratorOutcome v l₁) (h₂ : EnumeratorOutcome w l₂)
    (hties : ∀ a ∈ l₁, ∀ b ∈ l₁, a.HandlerName = b.HandlerName → a = b) : l₁ = l₂ := by
  have hperm := outcome_perm hvw h₁ h₂
  obtain ⟨-, -, -, hs₁⟩ := h₁
  obtain ⟨-, -, -, hs₂⟩ := h₂
  exact eq_of_perm_of_pairwise _ _ _ hperm hs₁ hs₂
    (fun a ha b hb hab hba => hties a ha b hb (strLess_connex hba hab))

theorem outcome_names_nodup {v : BigQueryAPI} {out : List handlerParam}
    (h : EnumeratorOutcome v out)
    (hdistinct : ((descriptorsOf v).map fun d => d.HandlerName).Nodup) :
    (out.map fun d => d.HandlerName).Nodup := by
  obtain ⟨xs, hxs, hp, -⟩ := h
  obtain ⟨-, rfl⟩ := (collect_ok_iff v xs).1 hxs
  exact (hp.map _).nodup_iff.2 hdistinct

/-- C14: for every document in which the derived `HandlerName`s of all
(resource, method) pairs are pairwise distinct, the sorted descriptor list is
determined by the document: two runs over it, in whatever orders they visit the
resources map and the methods maps and with whatever valid outcome of the sort,
hand the same slice to the template, namely the one the executable enumerator
returns, and render the same text. -/
theorem determinism_of_distinct_names (v w : BigQueryAPI) (l₁ l₂ : List handlerParam)
    (hvw : SameSpec v w)
    (hdistinct : ((descriptorsOf v).map fun d => d.HandlerName).Nodup)
    (h₁ : EnumeratorOutcome v l₁) (h₂ : EnumeratorOutcome w l₂) :
    l₁ = l₂ ∧ enumerate v = .ok l₁ ∧ enumerate w = .ok l₁ ∧ render l₁ = render l₂ := by
  have hties : ∀ a ∈ l₁, ∀ b ∈ l₁, a.HandlerName = b.HandlerName → a = b :=
    List.inj_on_of_nodup_map (outcome_names_nodup h₁ hdistinct)
  have h12 : l₁ = l₂ := outcome_unique hvw h₁ h₂ hties
  have hv : enumerate v = .ok l₁ := by
    obtain ⟨xs, hxs, -⟩ := id h₁
    have he : enumerate v = .ok (sortSlice xs) := by simp [enumerate, hxs]
    rw [he, outcome_unique (sameSpec_refl v) h₁ (enumerate_outcome he) hties]
  have hw : enumerate w = .ok l₁ := by
    obtain ⟨ys, hys, -⟩ := id h₂
    have he : enumerate w = .ok (sortSlice ys) := by simp [enumerate, hys]
    rw [he, outcome_unique hvw h₁ (enumerate_outcome he) hties]
  exact ⟨h12, hv, hw, by rw [h12]⟩

/-- C14, witness: `exampleSpec` and `exampleSpecReordered`, the same document
visited in two orders, with the three distinct names `tablesList`, `tablesGet`
and `jobsInsert`. -/
theorem determinism_of_distinct_names_witness :
    SameSpec exampleSpec exampleSpecReordered ∧
      ((descriptorsOf exampleSpec).map fun d => d.HandlerName) =
        [bytes "tablesList", bytes "tablesGet", bytes "jobsInsert"] ∧
      ((descriptorsOf exampleSpec).map fun d => d.HandlerName).Nodup ∧
      EnumeratorOutcome exampleSpec exampleSorted ∧
      EnumeratorOutcome exampleSpecReordered exampleSorted ∧
      (exampleSorted = exampleSorted ∧ enumerate exampleSpec = .ok exampleSorted ∧
        enumerate exampleSpecReordered = .ok exampleSorted ∧
        render exampleSorted = render exampleSorted) :=
  ⟨sameSpec_example, by decide, by decide, enumerate_outcome (by decide),
    enumerate_outcome (by decide),
    determinism_of_distinct_names exampleSpec exampleSpecReordered exampleSorted exampleSorted
      sameSpec_example (by decide) (enumerate_outcome (by decide))
      (enumerate_outcome (by decide))⟩

/-! ## C15: the identifier for an ASCII first byte -/

theorem toUpperOfByte_ascii :
    ∀ b : Byte, b.val < 0x80 →
      toUpperOfByte b =
        [if 0x61 ≤ b.val ∧ b.val ≤ 0x7A then Fin.ofNat (b.val - 32) else b] := by
  decide

/-- C15: for every resource name `r` and every method name `b :: rest` whose
first byte `b` is ASCII, the enumerator succeeds on the method and the
`HandlerName` is `r`, then `b` minus 32 when `b` is a lowercase ASCII letter and
`b` itself otherwise, then `rest`. Its length is the length of `r` plus the
length of the method name, `r` is a prefix and `rest` a suffix of it, it differs
from `r` followed by the method name at most in the byte that follows `r`, and
it equals `r` followed by the method name exactly when `b` is not a lowercase
ASCII letter. -/
theorem handlerName_ascii_shape (resourceName : GoString) (method : Method) (b : Byte)
    (rest : GoString) (hb : b.val < 0x80) :
    ∃ hp, handlerParamOf resourceName (b :: rest) (some method) = .ok hp ∧
      hp.HandlerName =
        resourceName ++
          (if 0x61 ≤ b.val ∧ b.val ≤ 0x7A then Fin.ofNat (b.val - 32) else b) :: rest ∧
      hp.HandlerName.length = resourceName.length + (b :: rest).length ∧
      resourceName <+: hp.HandlerName ∧
      rest <:+ hp.HandlerName ∧
      hp.HandlerName.drop (resourceName.length + 1) = rest ∧
      (hp.HandlerName = resourceName ++ b :: rest ↔ ¬ (0x61 ≤ b.val ∧ b.val ≤ 0x7A)) := by
  refine ⟨_, handlerParamOf_cons _ _ _ _, ?_⟩
  have hname : (specDescriptor resourceName (b :: rest) method).HandlerName =
      resourceName ++
        (if 0x61 ≤ b.val ∧ b.val ≤ 0x7A then Fin.ofNat (b.val - 32) else b) :: rest := by
    simp only [specDescriptor, toUpperOfByte_ascii b hb, List.singleton_append]
  rw [hname]
  refine ⟨rfl, by simp, List.prefix_append _ _, ?_, by simp, ?_⟩
  · exact ⟨resourceName ++
      [if 0x61 ≤ b.val ∧ b.val ≤ 0x7A then Fin.ofNat (b.val - 32) else b], by simp⟩
  · by_cases hlow : 0x61 ≤ b.val ∧ b.val ≤ 0x7A
    · rw [if_pos hlow]
      refine ⟨fun heq => ?_, fun hnot => absurd hlow hnot⟩
      have hbyte := (List.cons.inj (List.append_cancel_left heq)).1
      have hval := congrArg Fin.val hbyte
      simp only [Fin.ofNat, Fin.val_mk] at hval
      omega
    · simp [hlow]

/-- C15, witness: `jobs` with `insert` (first byte `i`, a lowercase letter) gives
`jobsInsert`, of length 4 + 6. -/
theorem handlerName_ascii_shape_witness :
    bytes "insert" = 0x69 :: bytes "nsert" ∧ (0x69 : Byte).val < 0x80 ∧
      bytes "jobs" ++ (Fin.ofNat (0x69 - 32) : Byte) :: bytes "nsert" = bytes "jobsInsert" ∧
      ∃ hp, handlerParamOf (bytes "jobs") (0x69 :: bytes "nsert")
          (some (methodOf "POST" "jobs" "")) = .ok hp ∧
        hp.HandlerName =
          bytes "jobs" ++
            (if 0x61 ≤ (0x69 : Byte).val ∧ (0x69 : Byte).val ≤ 0x7A
              then Fin.ofNat ((0x69 : Byte).val - 32) else 0x69) :: bytes "nsert" ∧
        hp.HandlerName.length = (bytes "jobs").length + (0x69 :: bytes "nsert").length ∧
        bytes "jobs" <+: hp.HandlerName ∧
        bytes "nsert" <:+ hp.HandlerName ∧
        hp.HandlerName.drop ((bytes "jobs").length + 1) = bytes "nsert" ∧
        (hp.HandlerName = bytes "jobs" ++ 0x69 :: bytes "nsert" ↔
          ¬ (0x61 ≤ (0x69 : Byte).val ∧ (0x69 : Byte).val ≤ 0x7A)) :=
  ⟨by decide, by decide, by decide,
    handlerName_ascii_shape (bytes "jobs") (methodOf "POST" "jobs" "") 0x69 (bytes "nsert")
      (by decide)⟩

/-! ## C16: what the normalization changes -/

theorem normalizePath_eq (p : GoString) :
    normalizePath p = if p.head? = some 0x2F then p else 0x2F :: p :=
  normalize_eq p

theorem hasPrefix_slash_iff (p : GoString) :
    HasPrefix p (bytes "/") = true ↔ p.head? = some 0x2F := by
  rw [bytes_slash]
  cases p with
  | nil => simp [HasPrefix]
  | cons b t => simp [HasPrefix]

theorem normalizePath_head (p : GoString) : (normalizePath p).head? = some 0x2F := by
  rw [normalizePath_eq]
  exact head_slash p

theorem normalizePath_of_head {p : GoString} (h : p.head? = some 0x2F) :
    normalizePath p = p := by
  rw [normalizePath_eq, if_pos h]

theorem specPath_eq_normalize (method : Method) :
    specPath method = normalizePath (chosenPath method) := by
  rw [normalizePath_eq]
  rfl

theorem specPath_of_flat {method : Method} {p : GoString} (h : p.head? = some 0x2F) :
    specPath { method with FlatPath := p } = p := by
  have hne : p ≠ [] := by
    intro hp
    rw [hp] at h
    simp at h
  simp [specPath, hne, h]

/-- C16: for every method (with a non-empty name, so that there is a
descriptor) the resolved `Path` is the normalization (lines 100-102) of the
chosen path, which is `FlatPath` if that is not empty and `Path` otherwise. It
is the chosen path itself when that starts with "/" and "/" followed by the
chosen path otherwise, so the chosen path is a suffix of it and at most one byte
is added in front. Normalizing the resolved path returns it unchanged, and so
does the code when the resolved path is given as the flattened path. A method
with both path fields empty resolves to exactly "/". -/
theorem path_normalization_shape (resourceName methodName : GoString) (method : Method)
    (hname : methodName ≠ []) :
    ∃ hp, handlerParamOf resourceName methodName (some method) = .ok hp ∧
      (method.FlatPath ≠ [] → chosenPath method = method.FlatPath) ∧
      (method.FlatPath = [] → chosenPath method = method.Path) ∧
      hp.Path = normalizePath (chosenPath method) ∧
      (HasPrefix (chosenPath method) (bytes "/") = true → hp.Path = chosenPath method) ∧
      (HasPrefix (chosenPath method) (bytes "/") = false →
        hp.Path = bytes "/" ++ chosenPath method) ∧
      (hp.Path = chosenPath method ∨ hp.Path = 0x2F :: chosenPath method) ∧
      chosenPath method <:+ hp.Path ∧
      hp.Path.length ≤ (chosenPath method).length + 1 ∧
      normalizePath hp.Path = hp.Path ∧
      handlerParamOf resourceName methodName (some { method with FlatPath := hp.Path }) =
        .ok hp ∧
      (method.FlatPath = [] → method.Path = [] → hp.Path = bytes "/") := by
  obtain ⟨b, rest, rfl⟩ := List.exists_cons_of_ne_nil hname
  refine ⟨_, handlerParamOf_cons _ _ _ _, ?_, ?_, ?_⟩
  · intro h
    simp [chosenPath, h]
  · intro h
    simp [chosenPath, h]
  have hpath : (specDescriptor resourceName (b :: rest) method).Path =
      normalizePath (chosenPath method) := specPath_eq_normalize method
  rw [hpath]
  have hidem : normalizePath (normalizePath (chosenPath method)) =
      normalizePath (chosenPath method) :=
    normalizePath_of_head (normalizePath_head _)
  refine ⟨rfl, ?_, ?_, ?_, ?_, ?_, hidem, ?_, ?_⟩
  · intro h
    exact normalizePath_of_head ((hasPrefix_slash_iff _).1 h)
  · intro h
    have hnot : ¬ (chosenPath method).head? = some 0x2F := by
      intro hh
      rw [(hasPrefix_slash_iff _).2 hh] at h
      exact absurd h (by simp)
    rw [normalizePath_eq, if_neg hnot, bytes_slash]
    rfl
  · rw [normalizePath_eq]
    split
    · exact Or.inl rfl
    · exact Or.inr rfl
  · rw [normalizePath_eq]
    split
    · exact List.suffix_refl _
    · exact List.suffix_cons _ _
  · rw [normalizePath_eq]
    split
    · omega
    · simp
  · rw [handlerParamOf_cons]
    have := @specPath_of_flat method _ (normalizePath_head (chosenPath method))
    simp only [specDescriptor]
    rw [this, specPath_eq_normalize method]
  · intro hflat hprimary
    simp [chosenPath, hflat, hprimary, normalizePath, HasPrefix, bytes_slash]

/-- C16, witness: the method with the primary path `a` and the flattened path
`/a/b` resolves to `/a/b`, unchanged; the method with both paths empty resolves
to "/". -/
theorem path_normalization_shape_witness :
    bytes "get" ≠ [] ∧
      (∃ hp, handlerParamOf (bytes "a") (bytes "get") (some (methodOf "GET" "a" "/a/b")) =
          .ok hp ∧ hp.Path = bytes "/a/b" ∧ normalizePath hp.Path = hp.Path) ∧
      (∃ hp, handlerParamOf (bytes "a") (bytes "get") (some (methodOf "GET" "" "")) = .ok hp ∧
          hp.Path = bytes "/") :=
  ⟨by decide,
    (path_normalization_shape (bytes "a") (bytes "get") (methodOf "GET" "a" "/a/b")
      (by decide)).imp fun _ h =>
        ⟨h.1, h.2.2.2.2.1 (by decide), h.2.2.2.2.2.2.2.2.2.1⟩,
    (path_normalization_shape (bytes "a") (bytes "get") (methodOf "GET" "" "")
      (by decide)).imp fun _ h => ⟨h.1, h.2.2.2.2.2.2.2.2.2.2.2 rfl rfl⟩⟩

end Generator
